import Mathlib

/-!
Verification of the fleetimporter repository's core logic against its
natural-language specification.

The repository's logic lives in two Python files:
* `tests/test_auto_update.py` defines the policy-artifact builder:
  `slugify`, `format_policy_name`, `build_version_query`.
* `tests/test_style_guide_compliance.py` defines the `StyleGuideValidator`
  class whose methods validate parsed recipe documents.

Strings are modelled as `List Char` (a Python `str` is a sequence of code
points).  Regular-expression character classes (`\w`, `\s`) and `str.lower`
are modelled on their ASCII fragment, which is the fragment the repository's
data exercises; each such definition notes the Python construct it embeds.
-/

/-! ### Policy artifact builder: build_version_query -/

/-- Embeds `software_title.replace("'", "''")` from `build_version_query`:
every single-quote character is doubled, all other characters are kept. -/
def escapeQuotes : List Char → List Char
  | [] => []
  | c :: rest => if c = '\'' then c :: c :: escapeQuotes rest else c :: escapeQuotes rest

/-- The fixed text of the query template before the first quoted literal. -/
def queryHead : List Char := "SELECT * FROM programs WHERE name = ".toList

/-- The fixed text of the query template between the two quoted literals
(without the surrounding quote characters). -/
def queryMid : List Char := " AND version != ".toList

/-- Embeds `build_version_query(software_title, version)`:
`f"SELECT * FROM programs WHERE name = '{escaped_title}' AND version != '{escaped_version}'"`. -/
def build_version_query (software_title version : List Char) : List Char :=
  queryHead ++ '\'' :: (escapeQuotes software_title ++ '\'' :: (queryMid ++ '\'' :: (escapeQuotes version ++ ['\''])))

/-- Reverses SQL quote-doubling: each pair of consecutive single quotes is
decoded to one quote.  Used to state the round-trip (injection) property. -/
def unescapeQuotes : List Char → List Char
  | [] => []
  | [c] => [c]
  | c :: c2 :: rest =>
      if c = '\'' ∧ c2 = '\'' then c :: unescapeQuotes rest
      else c :: unescapeQuotes (c2 :: rest)

/-- SQL single-quoted literal scanner.  Its argument is the text following an
opening quote; a doubled quote is an escaped quote, a lone quote closes the
literal.  Returns the text after the closing quote, or `none` when the
literal never closes. -/
def consumeLiteral : List Char → Option (List Char)
  | [] => none
  | [c] => if c = '\'' then some [] else none
  | c :: c2 :: rest =>
      if c = '\'' then (if c2 = '\'' then consumeLiteral rest else some (c2 :: rest))
      else consumeLiteral (c2 :: rest)

/-- Number of single-quote characters in a string. -/
def countQuotes (l : List Char) : Nat := l.count '\''

/-- Lengths of the maximal runs of consecutive single-quote characters,
left to right.  The accumulator holds the length of the run in progress. -/
def quoteRunsAux : List Char → Nat → List Nat
  | [], n => if n = 0 then [] else [n]
  | c :: rest, n =>
      if c = '\'' then quoteRunsAux rest (n + 1)
      else if n = 0 then quoteRunsAux rest 0 else n :: quoteRunsAux rest 0

/-- Lengths of the maximal runs of consecutive single-quote characters. -/
def quoteRuns (l : List Char) : List Nat := quoteRunsAux l 0

/-- ASCII uppercase letters (the characters changed by `str.lower`). -/
def isUpperChar (c : Char) : Bool := 65 ≤ c.toNat && c.toNat ≤ 90

/-- ASCII lowercase letters. -/
def isLowerAlpha (c : Char) : Bool := 97 ≤ c.toNat && c.toNat ≤ 122

/-- ASCII decimal digits. -/
def isDigitChar (c : Char) : Bool := 48 ≤ c.toNat && c.toNat ≤ 57

/-- ASCII fragment of the regex class `\w` used in
`re.sub(r"[^\w\s-]", "", text)`: letters, digits and underscore. -/
def isWordChar (c : Char) : Bool :=
  isUpperChar c || isLowerAlpha c || isDigitChar c || c = '_'

/-- ASCII fragment of the regex class `\s`: space, tab, newline, carriage
return, vertical tab and form feed. -/
def isSpaceChar (c : Char) : Bool :=
  c = ' ' || c = '\t' || c = '\n' || c = '\r' || c.toNat = 11 || c.toNat = 12

/-- Characters kept by `re.sub(r"[^\w\s-]", "", text)`. -/
def keepChar (c : Char) : Bool := isWordChar c || isSpaceChar c || c = '-'

/-- The class `[\s_-]` of `re.sub(r"[\s_-]+", "-", text)`. -/
def isSepChar (c : Char) : Bool := isSpaceChar c || c = '_' || c = '-'

/-- Embeds `re.sub(r"[\s_-]+", "-", text)`: every maximal run of separator
characters is replaced by a single hyphen.  The flag records whether the scan
is inside a run whose hyphen has already been emitted. -/
def collapseSepAux : List Char → Bool → List Char
  | [], _ => []
  | c :: rest, inRun =>
      if isSepChar c then
        if inRun then collapseSepAux rest true else '-' :: collapseSepAux rest true
      else c :: collapseSepAux rest false

/-- Embeds `re.sub(r"^-+|-+$", "", text)`: strips the leading run and the
trailing run of hyphens. -/
def stripHyphens (l : List Char) : List Char :=
  ((l.dropWhile (fun c => c = '-')).reverse.dropWhile (fun c => c = '-')).reverse

/-- Embeds `slugify(text)` from `test_auto_update.py` (replicating
`FleetImporter._slugify`): lower-case, drop characters outside `\w`, `\s`,
`-`, collapse separator runs to single hyphens, strip outer hyphens.
`str.lower` is modelled by `Char.toLower` (its ASCII fragment). -/
def slugify (text : List Char) : List Char :=
  stripHyphens (collapseSepAux ((text.map Char.toLower).filter keepChar) false)

/-- Holds iff the list starts with a hyphen. -/
def headIsHyphen : List Char → Bool
  | [] => false
  | c :: _ => c = '-'

/-- Holds iff the list has no two adjacent hyphens. -/
def noDoubleHyphen : List Char → Bool
  | [] => true
  | c :: rest => !(c = '-' && headIsHyphen rest) && noDoubleHyphen rest

/-! ### Policy artifact builder: format_policy_name -/

/-- The fixed placeholder token `%NAME%`. -/
def nameToken : List Char := "%NAME%".toList

/-- Fuel-driven worker embedding Python `str.replace(pat, repl)`: scans left
to right, replacing each non-overlapping occurrence of `pat`.  The fuel
bounds the number of scan steps; callers pass the string's length, which is
always sufficient.  (For empty `pat` the string is returned unchanged; the
repository only ever uses the nonempty pattern `%NAME%`.) -/
def replaceAllGo : Nat → List Char → List Char → List Char → List Char
  | _, s, [], _ => s
  | 0, s, _, _ => s
  | _ + 1, [], _, _ => []
  | fuel + 1, c :: rest, p :: ps, repl =>
      if (p :: ps).isPrefixOf (c :: rest) then
        repl ++ replaceAllGo fuel ((c :: rest).drop (p :: ps).length) (p :: ps) repl
      else c :: replaceAllGo fuel rest (p :: ps) repl

/-- Embeds Python `s.replace(pat, repl)`. -/
def replaceAll (s pat repl : List Char) : List Char := replaceAllGo s.length s pat repl

/-- Embeds `format_policy_name(template, software_title)`:
`template.replace("%NAME%", slugify(software_title))`. -/
def format_policy_name (template software_title : List Char) : List Char :=
  replaceAll template nameToken (slugify software_title)

/-- Fuel-driven worker embedding Python `str.split(pat)` for nonempty `pat`:
the token-free pieces of the string, in order. -/
def splitOnGo : Nat → List Char → List Char → List (List Char)
  | _, s, [] => [s]
  | 0, s, _ => [s]
  | _ + 1, [], _ => [[]]
  | fuel + 1, c :: rest, p :: ps =>
      if (p :: ps).isPrefixOf (c :: rest) then
        [] :: splitOnGo fuel ((c :: rest).drop (p :: ps).length) (p :: ps)
      else
        match splitOnGo fuel rest (p :: ps) with
        | [] => [[c]]
        | q :: qs => (c :: q) :: qs

/-- Embeds Python `s.split(pat)`. -/
def splitOnToken (s pat : List Char) : List (List Char) := splitOnGo s.length s pat

/-- Embeds Python `sep.join(parts)`. -/
def joinWith (sep : List Char) : List (List Char) → List Char
  | [] => []
  | [x] => x
  | x :: y :: rest => x ++ sep ++ joinWith sep (y :: rest)

/-- Holds iff `pat` occurs as a contiguous substring (Python `pat in s`). -/
def containsSub (pat : List Char) : List Char → Bool
  | [] => pat.isEmpty
  | c :: rest => pat.isPrefixOf (c :: rest) || containsSub pat rest

/-! ### Style guide validator: data model

A parsed YAML document is modelled by `Yaml`.  Mapping keys are strings
(recipe documents only use string keys); YAML floats are not modelled (no
recipe field is a float).  Python `None` is `Yaml.null`. -/

inductive Yaml where
  | null
  | bool (b : Bool)
  | str (s : List Char)
  | int (n : Int)
  | list (xs : List Yaml)
  | map (es : List (List Char × Yaml))

/-- Python truthiness (`if x:`) for the modelled values. -/
def Yaml.truthy : Yaml → Bool
  | .null => false
  | .bool b => b
  | .str s => !s.isEmpty
  | .int n => n != 0
  | .list xs => !xs.isEmpty
  | .map es => !es.isEmpty

/-- Lookup in a mapping (Python dict with string keys). -/
def mapLookup (es : List (List Char × Yaml)) (k : List Char) : Option Yaml :=
  (es.find? (fun e => e.1 = k)).map (fun e => e.2)

/-- The exceptions the validator can raise on malformed documents. -/
inductive PyExn where
  | typeError
  | attributeError
  | keyError
  | indexError
deriving DecidableEq

/-- Compares `y == s` for a string `s` (Python `==`; values of other types are never
equal to a string). -/
def isStrEq (y : Yaml) (s : List Char) : Bool :=
  match y with
  | .str t => t = s
  | _ => false

/-- Python `needle in container` for container values (mapping: key
membership, list: element equality, string: substring). -/
def pyContainsB (needle : List Char) : Yaml → Bool
  | .map es => es.any (fun e => e.1 = needle)
  | .list xs => xs.any (fun y => isStrEq y needle)
  | .str s => containsSub needle s
  | _ => false

/-- Python `len(x)`; raises `TypeError` on unsized values. -/
def pyLen : Yaml → Except PyExn Nat
  | .str s => .ok s.length
  | .list xs => .ok xs.length
  | .map es => .ok es.length
  | _ => .error .typeError

/-- Python iteration (`for x in y`): characters of a string (as one-character
strings), elements of a list, keys of a mapping; raises `TypeError`
otherwise. -/
def pyIter : Yaml → Except PyExn (List Yaml)
  | .str s => .ok (s.map (fun c => .str [c]))
  | .list xs => .ok xs
  | .map es => .ok (es.map (fun e => .str e.1))
  | _ => .error .typeError

/-- Python `x[0]`: raises `IndexError` on empty sequences, `KeyError` on a
string-keyed mapping, `TypeError` on non-subscriptable values. -/
def pyIndexZero : Yaml → Except PyExn Yaml
  | .str [] => .error .indexError
  | .str (c :: _) => .ok (.str [c])
  | .list [] => .error .indexError
  | .list (x :: _) => .ok x
  | .map _ => .error .keyError
  | _ => .error .typeError

/-- Structured counterparts of the error messages appended to
`self.errors`, one constructor per `errors.append` site, carrying the
values the Python f-string interpolates. -/
inductive VError where
  | parseFail (path : List Char)
  | badFilename (path : List Char)
  | vendorRoot (path : List Char)
  | vendorSpaces (path folder : List Char)
  | missingFields (path : List Char) (missing : List (List Char))
  | missingIdentifier (path : List Char)
  | badIdStart (path idStr : List Char)
  | idNotDirect (path idStr : List Char)
  | idNotGitops (path idStr : List Char)
  | missingProcess (path : List Char)
  | noFleetImporter (path : List Char)
  | missingInput (path : List Char)
  | missingName (path : List Char)
  | missingSelfService (path : List Char)
  | badSelfService (path : List Char) (v : Yaml)
  | missingAutomaticInstall (path : List Char)
  | badAutomaticInstall (path : List Char) (v : Yaml)
  | missingSoftwareDir (path : List Char)
  | badSoftwareDir (path : List Char) (v : Yaml)
  | missingTeamYaml (path : List Char)
  | badTeamYaml (path : List Char) (v : Yaml)
  | badCategories (path : List Char) (invalid : List Yaml)
  | badArgSelfService (path : List Char) (v : Yaml)
  | badArgAutomaticInstall (path : List Char) (v : Yaml)
  | badArgSoftwareDir (path : List Char) (v : Yaml)
  | badArgTeamYaml (path : List Char) (v : Yaml)

/-- Structured counterpart of the single `warnings.append` site. -/
inductive VWarning where
  | processCount (path : List Char) (n : Nat)

/-- The outcome of one check: errors and warnings appended before the check
finished or raised, and the raised exception if any. -/
structure CheckOut where
  errs : List VError
  warns : List VWarning
  exn : Option PyExn

/-- Sequence two checks: the second runs only when the first did not raise
(an uncaught exception aborts `validate_recipe`). -/
def seqC (a b : CheckOut) : CheckOut :=
  match a.exn with
  | some _ => a
  | none => ⟨a.errs ++ b.errs, a.warns ++ b.warns, b.exn⟩

/-! Fixed configuration constants of the validator. -/

def kDescription : List Char := "Description".toList

def kIdentifier : List Char := "Identifier".toList

def kInput : List Char := "Input".toList

def kProcess : List Char := "Process".toList

def kProcessor : List Char := "Processor".toList

def kArguments : List Char := "Arguments".toList

def kNAME : List Char := "NAME".toList

def kSELF_SERVICE : List Char := "SELF_SERVICE".toList

def kAUTOMATIC_INSTALL : List Char := "AUTOMATIC_INSTALL".toList

def kSOFTWARE_DIR : List Char := "FLEET_GITOPS_SOFTWARE_DIR".toList

def kTEAM_YAML : List Char := "FLEET_GITOPS_TEAM_YAML_PATH".toList

def kCATEGORIES : List Char := "CATEGORIES".toList

def requiredFieldKeys : List (List Char) := [kDescription, kIdentifier, kInput, kProcess]

def supportedCategories : List (List Char) :=
  ["Browsers".toList, "Communication".toList, "Developer tools".toList,
   "Productivity".toList]

def tokDirect : List Char := ".direct.".toList

def tokGitops : List Char := ".gitops.".toList

def suffixDirect : List Char := ".fleet.direct.recipe.yaml".toList

def suffixGitops : List Char := ".fleet.gitops.recipe.yaml".toList

def expectedNs : List Char := "com.github.fleet.".toList

def softwareDirVal : List Char := "lib/macos/software".toList

def teamYamlVal : List Char := "teams/workstations.yml".toList

def kArgSelfService : List Char := "self_service".toList

def kArgAutomaticInstall : List Char := "automatic_install".toList

def kArgSoftwareDir : List Char := "gitops_software_dir".toList

def kArgTeamYaml : List Char := "gitops_team_yaml_path".toList

def argSelfServiceVal : List Char := "%SELF_SERVICE%".toList

def argAutomaticInstallVal : List Char := "%AUTOMATIC_INSTALL%".toList

def argSoftwareDirVal : List Char := "%FLEET_GITOPS_SOFTWARE_DIR%".toList

def argTeamYamlVal : List Char := "%FLEET_GITOPS_TEAM_YAML_PATH%".toList

def fleetImporterName : List Char := "FleetImporter".toList

/-- Embeds `os.path.basename`: the component after the final `/`. -/
def basename (path : List Char) : List Char :=
  (path.reverse.takeWhile (fun c => c != '/')).reverse

/-- Python `s.endswith(suffix)`. -/
def endsWith (s suffix : List Char) : Bool := suffix.reverse.isPrefixOf s.reverse

/-! ### Style guide validator: the checks (one definition per method) -/

/-- Embeds `validate_filename`: the basename must end with one of the two
fixed mode suffixes. -/
def validate_filename (path : List Char) : List VError :=
  if endsWith (basename path) suffixDirect || endsWith (basename path) suffixGitops
  then [] else [.badFilename path]

/-- Embeds `validate_vendor_folder`: `recipe_path.split(os.sep)` must have
at least two parts, and the penultimate part must contain no space. -/
def validate_vendor_folder (path : List Char) : List VError :=
  let parts := splitOnToken path ['/']
  match parts.reverse with
  | _ :: vendor :: _ =>
      if containsSub [' '] vendor then [.vendorSpaces path vendor] else []
  | _ => [.vendorRoot path]

/-- Embeds `validate_required_fields`: the four required top-level keys must
be present (`field not in data`, which raises `TypeError` when the document
is not a container). -/
def validate_required_fields (path : List Char) (data : Yaml) : CheckOut :=
  match data with
  | .null | .bool _ | .int _ => ⟨[], [], some .typeError⟩
  | _ =>
      let missing := requiredFieldKeys.filter (fun k => !(pyContainsB k data))
      if missing.isEmpty then ⟨[], [], none⟩
      else ⟨[.missingFields path missing], [], none⟩

/-- Embeds `validate_identifier`: `data.get("Identifier", "")` must be
truthy, start with the fixed namespace, and contain the mode token matching
the mode inferred from the filename.  `.get` on a non-mapping and
`.startswith` on a non-string raise `AttributeError`. -/
def validate_identifier (path : List Char) (data : Yaml)
    (isGitops isDirect : Bool) : CheckOut :=
  match data with
  | .map es =>
      let identifier := (mapLookup es kIdentifier).getD (.str [])
      if !identifier.truthy then ⟨[.missingIdentifier path], [], none⟩
      else
        match identifier with
        | .str idStr =>
            if !(expectedNs.isPrefixOf idStr) then ⟨[.badIdStart path idStr], [], none⟩
            else
              if isDirect && !(containsSub tokDirect idStr) then
                ⟨[.idNotDirect path idStr], [], none⟩
              else if isGitops && !(containsSub tokGitops idStr) then
                ⟨[.idNotGitops path idStr], [], none⟩
              else ⟨[], [], none⟩
        | _ => ⟨[], [], some .attributeError⟩
  | _ => ⟨[], [], some .attributeError⟩

/-- The `for item in process_list` loop of `validate_single_processor`:
stops at the first mapping stage whose `Processor` value contains
`"FleetImporter"`; `"FleetImporter" in processor` raises `TypeError` when
the value is not a container. -/
def findFleetImporter : List Yaml → Except PyExn Bool
  | [] => .ok false
  | item :: rest =>
      match item with
      | .map fes =>
          let processor := (mapLookup fes kProcessor).getD (.str [])
          match processor with
          | .null | .bool _ | .int _ => .error .typeError
          | _ =>
              if pyContainsB fleetImporterName processor then .ok true
              else findFleetImporter rest
      | _ => findFleetImporter rest

/-- Embeds `validate_single_processor`: missing `Process` is its own error;
a stage count other than 1 is a warning; a missing `FleetImporter`
processor is an error. -/
def validate_single_processor (path : List Char) (data : Yaml) : CheckOut :=
  match data with
  | .map es =>
      let process := (mapLookup es kProcess).getD (.list [])
      if !process.truthy then ⟨[.missingProcess path], [], none⟩
      else
        match pyLen process with
        | .error ex => ⟨[], [], some ex⟩
        | .ok n =>
            let warns : List VWarning := if n ≠ 1 then [.processCount path n] else []
            match pyIter process with
            | .error ex => ⟨[], warns, some ex⟩
            | .ok items =>
                match findFleetImporter items with
                | .error ex => ⟨[], warns, some ex⟩
                | .ok true => ⟨[], warns, none⟩
                | .ok false => ⟨[.noFleetImporter path], warns, none⟩
  | _ => ⟨[], [], some .attributeError⟩

/-- Embeds `validate_name`: `input_section.get("NAME")` must not be `None`. -/
def validate_name (path : List Char) (inp : Yaml) : CheckOut :=
  match inp with
  | .map es =>
      match (mapLookup es kNAME).getD .null with
      | .null => ⟨[.missingName path], [], none⟩
      | _ => ⟨[], [], none⟩
  | _ => ⟨[], [], some .attributeError⟩

/-- Embeds `validate_self_service`: the value must be exactly `True`. -/
def validate_self_service (path : List Char) (inp : Yaml) : CheckOut :=
  match inp with
  | .map es =>
      match (mapLookup es kSELF_SERVICE).getD .null with
      | .null => ⟨[.missingSelfService path], [], none⟩
      | .bool true => ⟨[], [], none⟩
      | v => ⟨[.badSelfService path v], [], none⟩
  | _ => ⟨[], [], some .attributeError⟩

/-- Embeds `validate_automatic_install`: the value must be exactly `False`. -/
def validate_automatic_install (path : List Char) (inp : Yaml) : CheckOut :=
  match inp with
  | .map es =>
      match (mapLookup es kAUTOMATIC_INSTALL).getD .null with
      | .null => ⟨[.missingAutomaticInstall path], [], none⟩
      | .bool false => ⟨[], [], none⟩
      | v => ⟨[.badAutomaticInstall path v], [], none⟩
  | _ => ⟨[], [], some .attributeError⟩

/-- Embeds `validate_gitops_software_dir`: the value must equal the fixed
literal path. -/
def validate_gitops_software_dir (path : List Char) (inp : Yaml) : CheckOut :=
  match inp with
  | .map es =>
      match (mapLookup es kSOFTWARE_DIR).getD .null with
      | .null => ⟨[.missingSoftwareDir path], [], none⟩
      | v => if isStrEq v softwareDirVal then ⟨[], [], none⟩
             else ⟨[.badSoftwareDir path v], [], none⟩
  | _ => ⟨[], [], some .attributeError⟩

/-- Embeds `validate_gitops_team_yaml_path`: the value must equal the fixed
literal path. -/
def validate_gitops_team_yaml_path (path : List Char) (inp : Yaml) : CheckOut :=
  match inp with
  | .map es =>
      match (mapLookup es kTEAM_YAML).getD .null with
      | .null => ⟨[.missingTeamYaml path], [], none⟩
      | v => if isStrEq v teamYamlVal then ⟨[], [], none⟩
             else ⟨[.badTeamYaml path v], [], none⟩
  | _ => ⟨[], [], some .attributeError⟩

/-- The `for category in categories` loop of `validate_categories`:
collects the entries outside the supported set; set membership of an
unhashable value raises `TypeError`. -/
def collectInvalid : List Yaml → Except PyExn (List Yaml)
  | [] => .ok []
  | c :: rest =>
      match c with
      | .list _ | .map _ => .error .typeError
      | .str s =>
          match collectInvalid rest with
          | .error ex => .error ex
          | .ok inv =>
              .ok (if supportedCategories.any (fun t => t = s) then inv else c :: inv)
      | _ =>
          match collectInvalid rest with
          | .error ex => .error ex
          | .ok inv => .ok (c :: inv)

/-- Embeds `validate_categories`: an absent or falsy `CATEGORIES` value
skips the check; otherwise every entry outside the supported set is listed
in one error. -/
def validate_categories (path : List Char) (inp : Yaml) : CheckOut :=
  match inp with
  | .map es =>
      let cats := (mapLookup es kCATEGORIES).getD (.list [])
      if !cats.truthy then ⟨[], [], none⟩
      else
        match pyIter cats with
        | .error ex => ⟨[], [], some ex⟩
        | .ok items =>
            match collectInvalid items with
            | .error ex => ⟨[], [], some ex⟩
            | .ok inv =>
                if inv.isEmpty then ⟨[], [], none⟩
                else ⟨[.badCategories path inv], [], none⟩
  | _ => ⟨[], [], some .attributeError⟩

/-- Embeds `validate_process_arguments`: each binding must equal the
corresponding placeholder string; the two gitops bindings are checked only
in gitops mode. -/
def validate_process_arguments (path : List Char) (args : Yaml)
    (isGitops : Bool) : CheckOut :=
  match args with
  | .map es =>
      let ss := (mapLookup es kArgSelfService).getD .null
      let e1 : List VError :=
        if isStrEq ss argSelfServiceVal then [] else [.badArgSelfService path ss]
      let ai := (mapLookup es kArgAutomaticInstall).getD .null
      let e2 : List VError :=
        if isStrEq ai argAutomaticInstallVal then [] else [.badArgAutomaticInstall path ai]
      let rest : List VError :=
        if isGitops then
          let sd := (mapLookup es kArgSoftwareDir).getD .null
          let e3 : List VError :=
            if isStrEq sd argSoftwareDirVal then [] else [.badArgSoftwareDir path sd]
          let ty := (mapLookup es kArgTeamYaml).getD .null
          let e4 : List VError :=
            if isStrEq ty argTeamYamlVal then [] else [.badArgTeamYaml path ty]
          e3 ++ e4
        else []
      ⟨e1 ++ e2 ++ rest, [], none⟩
  | _ => ⟨[], [], some .attributeError⟩

/-- The final block of `validate_recipe`: when `data.get("Process", [])` is
truthy and nonempty, `process_list[0].get("Arguments", {})` is validated. -/
def processArgsStage (path : List Char) (data : Yaml) (isGitops : Bool) : CheckOut :=
  match data with
  | .map es =>
      let process := (mapLookup es kProcess).getD (.list [])
      if process.truthy then
        match pyLen process with
        | .error ex => ⟨[], [], some ex⟩
        | .ok n =>
            if n > 0 then
              match pyIndexZero process with
              | .error ex => ⟨[], [], some ex⟩
              | .ok first =>
                  match first with
                  | .map fes =>
                      validate_process_arguments path
                        ((mapLookup fes kArguments).getD (.map [])) isGitops
                  | _ => ⟨[], [], some .attributeError⟩
            else ⟨[], [], none⟩
      else ⟨[], [], none⟩
  | _ => ⟨[], [], some .attributeError⟩

/-- The tail of `validate_recipe` from `input_section = data.get("Input", {})`
onwards: a falsy `Input` is reported as missing and ends the method early;
otherwise the input checks, the gitops checks (gitops mode only), the
categories check and the process-argument checks run in order. -/
def inputStage (path : List Char) (data : Yaml) (isGitops : Bool) : CheckOut :=
  match data with
  | .map es =>
      let inp := (mapLookup es kInput).getD (.map [])
      if !inp.truthy then ⟨[.missingInput path], [], none⟩
      else
        seqC (validate_name path inp)
        (seqC (validate_self_service path inp)
        (seqC (validate_automatic_install path inp)
        (seqC (if isGitops then
                seqC (validate_gitops_software_dir path inp)
                  (validate_gitops_team_yaml_path path inp)
              else ⟨[], [], none⟩)
        (seqC (validate_categories path inp)
        (processArgsStage path data isGitops)))))
  | _ => ⟨[], [], some .attributeError⟩

/-- The outcome of parsing one recipe file (the YAML parser is an external
collaborator): a parsed document, or a parse failure. -/
inductive ParseOutcome where
  | ok (doc : Yaml)
  | err

/-- The result of `validate_recipe` on one file: the errors and warnings
appended for this file, whether the file was counted in the direct and
gitops per-mode counts, and the uncaught exception if the method raised. -/
structure RecipeResult where
  errs : List VError
  warns : List VWarning
  countedDirect : Bool
  countedGitops : Bool
  exn : Option PyExn

/-- Embeds `validate_recipe`: filename and vendor checks, the parse
short-circuit, the required-fields check, mode counting
(`if is_gitops: ... elif is_direct: ...`), and the remaining checks in
source order.  An exception aborts the method, keeping the entries appended
before it. -/
def validate_recipe (path : List Char) (pr : ParseOutcome) : RecipeResult :=
  let e0 := validate_filename path ++ validate_vendor_folder path
  match pr with
  | .err => ⟨e0 ++ [.parseFail path], [], false, false, none⟩
  | .ok data =>
      let r := validate_required_fields path data
      match r.exn with
      | some ex => ⟨e0 ++ r.errs, r.warns, false, false, some ex⟩
      | none =>
          let isGitops := containsSub tokGitops path
          let isDirect := containsSub tokDirect path
          let rest := seqC (validate_identifier path data isGitops isDirect)
            (seqC (validate_single_processor path data)
              (inputStage path data isGitops))
          ⟨e0 ++ r.errs ++ rest.errs, r.warns ++ rest.warns,
            isDirect && !isGitops, isGitops, rest.exn⟩

/-- The run-level aggregate state of `StyleGuideValidator`. -/
structure RunState where
  errors : List VError
  warnings : List VWarning
  recipeCount : Nat
  directCount : Nat
  gitopsCount : Nat

def initState : RunState := ⟨[], [], 0, 0, 0⟩

/-- Embeds the loop of `validate_all_recipes`: validates each file in order,
accumulating state; an uncaught exception aborts the run. -/
def runValidator : List (List Char × ParseOutcome) → RunState → RunState × Option PyExn
  | [], st => (st, none)
  | (p, pr) :: rest, st =>
      let r := validate_recipe p pr
      let st' : RunState := ⟨st.errors ++ r.errs, st.warnings ++ r.warns,
        st.recipeCount + 1,
        st.directCount + (if r.countedDirect then 1 else 0),
        st.gitopsCount + (if r.countedGitops then 1 else 0)⟩
      match r.exn with
      | some ex => (st', some ex)
      | none => runValidator rest st'

/-- Embeds `report_results`: exit code 0 when there are no errors and no
warnings, 1 when there is at least one error, 0 otherwise (warnings only). -/
def report_results (st : RunState) : Nat :=
  if st.errors.isEmpty && st.warnings.isEmpty then 0
  else if !st.errors.isEmpty then 1
  else 0

/-! ### Well-shaped documents (the shapes on which the validator cannot raise) -/

/-- Values supporting the `in` operator (strings, lists, mappings). -/
def containerYaml : Yaml → Bool
  | .str _ => true
  | .list _ => true
  | .map _ => true
  | _ => false

/-- Hashable values (usable in a set-membership test). -/
def hashableYaml : Yaml → Bool
  | .list _ => false
  | .map _ => false
  | _ => true

/-- A `Process` stage the `FleetImporter` scan can inspect without raising:
a mapping stage's `Processor` value must support `in`. -/
def stageOk : Yaml → Bool
  | .map fes => containerYaml ((mapLookup fes kProcessor).getD (.str []))
  | _ => true

/-- A truthy `CATEGORIES` value the categories check can process without
raising: an iterable whose iterated elements are hashable. -/
def catsOk : Yaml → Bool
  | .str _ => true
  | .list xs => xs.all hashableYaml
  | .map _ => true
  | _ => false

/-- The `CATEGORIES` entry of an input mapping can be processed without
raising: absent, falsy, or a processable iterable. -/
def catsFieldOk (ies : List (List Char × Yaml)) : Bool :=
  match mapLookup ies kCATEGORIES with
  | some c => !c.truthy || catsOk c
  | none => true

/-- A truthy `Input` value the input checks can process without raising. -/
def inputOk : Yaml → Bool
  | .map ies => catsFieldOk ies
  | _ => false

/-- A first `Process` stage whose `Arguments` can be fetched and validated
without raising: a mapping whose `Arguments` value (when present) is a
mapping. -/
def firstStageOk : Yaml → Bool
  | .map fes =>
      (match mapLookup fes kArguments with
       | some a => (match a with | .map _ => true | _ => false)
       | none => true)
  | _ => false

/-- A `Process` value the validator can process without raising. -/
def processOk (p : Yaml) : Bool :=
  !p.truthy ||
    (match p with
     | .list (first :: rest) => firstStageOk first && (first :: rest).all stageOk
     | _ => false)

/-- The documents on which `validate_recipe` completes without raising: a
mapping whose `Identifier` (when truthy) is a string, whose `Process` (when
truthy) is a list of inspectable stages with a mapping first stage and
mapping (or absent) `Arguments`, and whose `Input` (when truthy) is a
mapping with processable `CATEGORIES`. -/
def idFieldOk (es : List (List Char × Yaml)) : Bool :=
  match mapLookup es kIdentifier with
  | some v => !v.truthy || (match v with | .str _ => true | _ => false)
  | none => true

def processFieldOk (es : List (List Char × Yaml)) : Bool :=
  processOk ((mapLookup es kProcess).getD (.list []))

def inputFieldOk (es : List (List Char × Yaml)) : Bool :=
  match mapLookup es kInput with
  | some i => !i.truthy || inputOk i
  | none => true

def wellShapedDoc : Yaml → Bool
  | .map es => idFieldOk es && processFieldOk es && inputFieldOk es
  | _ => false

/-! ### Concrete recipe documents used in scenarios -/

def pathDirect : List Char := "Vendor/App.fleet.direct.recipe.yaml".toList

def pathGitops : List Char := "Vendor/App.fleet.gitops.recipe.yaml".toList

/-- A path containing both mode tokens whose filename is nevertheless a
valid gitops filename. -/
def pathBoth : List Char := "Vendor/App.direct.x.fleet.gitops.recipe.yaml".toList

def goodInputDirect : Yaml :=
  .map [(kNAME, .str "App".toList), (kSELF_SERVICE, .bool true),
        (kAUTOMATIC_INSTALL, .bool false)]

def goodStageDirect : Yaml :=
  .map [(kProcessor, .str "FleetImporter".toList),
        (kArguments, .map [(kArgSelfService, .str argSelfServiceVal),
                           (kArgAutomaticInstall, .str argAutomaticInstallVal)])]

/-- A fully compliant direct-mode document except that its `Process` has two
stages (which is only a warning). -/
def docTwoStages : Yaml :=
  .map [(kDescription, .str "App recipe".toList),
        (kIdentifier, .str "com.github.fleet.direct.App".toList),
        (kInput, goodInputDirect),
        (kProcess, .list [goodStageDirect,
                          .map [(kProcessor, .str "FleetImporter".toList)]])]

/-- The document `docTwoStages` without its `Process` key. -/
def docNoProcess : Yaml :=
  .map [(kDescription, .str "App recipe".toList),
        (kIdentifier, .str "com.github.fleet.direct.App".toList),
        (kInput, goodInputDirect)]

/-- A document whose `Process` list's first stage is a plain string. -/
def docBadStage : Yaml :=
  .map [(kDescription, .str "App recipe".toList),
        (kIdentifier, .str "com.github.fleet.direct.App".toList),
        (kInput, goodInputDirect),
        (kProcess, .list [.str "x".toList])]

def gitopsInputCats : Yaml :=
  .map [(kNAME, .str "App".toList), (kSELF_SERVICE, .bool true),
        (kAUTOMATIC_INSTALL, .bool false),
        (kSOFTWARE_DIR, .str softwareDirVal), (kTEAM_YAML, .str teamYamlVal),
        (kCATEGORIES, .list [.str "Browsers".toList, .str "Gaming".toList])]

def gitopsStage : Yaml :=
  .map [(kProcessor, .str "FleetImporter".toList),
        (kArguments, .map [(kArgSelfService, .str argSelfServiceVal),
                           (kArgAutomaticInstall, .str argAutomaticInstallVal),
                           (kArgSoftwareDir, .str argSoftwareDirVal),
                           (kArgTeamYaml, .str argTeamYamlVal)])]

/-- A fully compliant gitops-mode document except that `Input.CATEGORIES`
is `["Browsers", "Gaming"]`. -/
def docGitopsCats : Yaml :=
  .map [(kDescription, .str "App recipe".toList),
        (kIdentifier, .str "com.github.fleet.gitops.App".toList),
        (kInput, gitopsInputCats),
        (kProcess, .list [gitopsStage])]

/-! ### C3: how a missing prerequisite key is reported -/

/-- Holds for the error entries that report the absence of the `Process`
key: the required-fields entry listing `Process`, and the dedicated
"Missing Process section" entry. -/
def mentionsProcessMissing : VError → Bool
  | .missingFields _ m => m.any (fun k => k = kProcess)
  | .missingProcess _ => true
  | _ => false

/-- Holds for the error entries of checks that depend on the `Process`
key's value: the FleetImporter check and the argument-binding checks. -/
def isProcessDependent : VError → Bool
  | .noFleetImporter _ => true
  | .badArgSelfService _ _ => true
  | .badArgAutomaticInstall _ _ => true
  | .badArgSoftwareDir _ _ => true
  | .badArgTeamYaml _ _ => true
  | _ => false

/-- Errors neither reporting the `Process` absence nor produced by a
`Process`-dependent check. -/
def processNeutral (e : VError) : Bool :=
  !(mentionsProcessMissing e) && !(isProcessDependent e)

/-- A path containing neither mode token. -/
def pathNoToken : List Char := "Vendor/App.yaml".toList

/-- Holds iff the value is a string. -/
def isStrYaml : Yaml → Bool
  | .str _ => true
  | _ => false

/-- Membership of a category value in the supported set (only strings can
be members). -/
def catSupported : Yaml → Bool
  | .str s => supportedCategories.any (fun t => t = s)
  | _ => false

def catsBG : List Yaml := [.str "Browsers".toList, .str "Gaming".toList]

def catsOnlyInput : List (List Char × Yaml) := [(kCATEGORIES, Yaml.list catsBG)]


/-- Holds for the error entries that report the absence of the `Input`
key: the required-fields entry listing `Input`, and the dedicated
"Missing Input section" entry. -/
def mentionsInputMissing : VError → Bool
  | .missingFields _ m => m.any (fun k => k = kInput)
  | .missingInput _ => true
  | _ => false

/-- Holds for the error entries of checks that depend on the `Input`
key's value: the NAME/SELF_SERVICE/AUTOMATIC_INSTALL checks, the gitops
path checks, the categories check, and the argument-binding checks (all
skipped by the early return when `Input` is missing). -/
def isInputDependent : VError → Bool
  | .missingName _ => true
  | .missingSelfService _ => true
  | .badSelfService _ _ => true
  | .missingAutomaticInstall _ => true
  | .badAutomaticInstall _ _ => true
  | .missingSoftwareDir _ => true
  | .badSoftwareDir _ _ => true
  | .missingTeamYaml _ => true
  | .badTeamYaml _ _ => true
  | .badCategories _ _ => true
  | .badArgSelfService _ _ => true
  | .badArgAutomaticInstall _ _ => true
  | .badArgSoftwareDir _ _ => true
  | .badArgTeamYaml _ _ => true
  | _ => false

/-- Errors neither reporting the `Input` absence nor produced by an
`Input`-dependent check. -/
def inputNeutral (e : VError) : Bool :=
  !(mentionsInputMissing e) && !(isInputDependent e)

/-- The document `docTwoStages` with a single-stage `Process` and without
its `Input` key. -/
def docNoInput : Yaml :=
  .map [(kDescription, .str "App recipe".toList),
        (kIdentifier, .str "com.github.fleet.direct.App".toList),
        (kProcess, .list [goodStageDirect])]

/-! ### Theorems -/

theorem escapeQuotes_eq_nil {a : List Char} (h : escapeQuotes a = []) : a = [] := by
  cases a with
  | nil => rfl
  | cons c rest =>
    exfalso
    by_cases hc : c = '\'' <;> simp [escapeQuotes, hc] at h

theorem unescape_escape (a : List Char) : unescapeQuotes (escapeQuotes a) = a := by
  induction a with
  | nil => rfl
  | cons c rest ih =>
    by_cases hc : c = '\''
    · subst hc
      simp only [escapeQuotes, if_pos rfl]
      simp [unescapeQuotes, ih]
    · simp only [escapeQuotes, if_neg hc]
      cases hq : escapeQuotes rest with
      | nil =>
        rw [escapeQuotes_eq_nil hq]
        rfl
      | cons d ds =>
        rw [hq] at ih
        simp only [unescapeQuotes]
        rw [if_neg (fun h => hc h.1), ih]

theorem consumeLiteral_escape (a : List Char) (tail : List Char)
    (h : tail.head? ≠ some '\'') :
    consumeLiteral (escapeQuotes a ++ '\'' :: tail) = some tail := by
  induction a with
  | nil =>
    cases tail with
    | nil => rfl
    | cons t ts =>
      have ht : t ≠ '\'' := by
        intro hh
        exact h (by simp [hh])
      simp [escapeQuotes, consumeLiteral, ht]
  | cons c rest ih =>
    by_cases hc : c = '\''
    · subst hc
      simpa [escapeQuotes, consumeLiteral] using ih
    · cases hq : escapeQuotes rest with
      | nil =>
        have hr : rest = [] := by
          cases rest with
          | nil => rfl
          | cons d ds =>
            exfalso
            by_cases hd : d = '\'' <;> simp [escapeQuotes, hd] at hq
        subst hr
        cases tail with
        | nil => simp [escapeQuotes, consumeLiteral, hc]
        | cons t ts =>
          have ht : t ≠ '\'' := by
            intro hh
            exact h (by simp [hh])
          simp [escapeQuotes, consumeLiteral, hc, ht]
      | cons d ds =>
        rw [hq] at ih
        simp only [escapeQuotes, if_neg hc, hq, List.cons_append, consumeLiteral, if_neg hc]
        exact ih

/-- C1: In the query built by `build_version_query`, each quoted segment
round-trips (reversing the quote-doubling reconstructs the input exactly),
and a SQL literal scanner entering either quoted segment consumes the whole
escaped segment and closes exactly at the template's own closing quote —
no prefix of the escaped segment can close the literal early, for every
input including quotes followed by SQL keywords. -/
theorem buildVersionQuery_injection_safe (title version : List Char) :
    build_version_query title version =
      queryHead ++ '\'' :: (escapeQuotes title ++ '\'' ::
        (queryMid ++ '\'' :: (escapeQuotes version ++ ['\'']))) ∧
    unescapeQuotes (escapeQuotes title) = title ∧
    unescapeQuotes (escapeQuotes version) = version ∧
    consumeLiteral (escapeQuotes title ++ '\'' ::
        (queryMid ++ '\'' :: (escapeQuotes version ++ ['\'']))) =
      some (queryMid ++ '\'' :: (escapeQuotes version ++ ['\''])) ∧
    consumeLiteral (escapeQuotes version ++ ['\'']) = some [] := by
  refine ⟨rfl, unescape_escape title, unescape_escape version, ?_, ?_⟩
  · exact consumeLiteral_escape _ _ (by simp [queryMid])
  · exact consumeLiteral_escape _ [] (by simp)

theorem countQuotes_append (a b : List Char) :
    countQuotes (a ++ b) = countQuotes a + countQuotes b := by
  simp [countQuotes, List.count_append]

theorem countQuotes_escape (a : List Char) :
    countQuotes (escapeQuotes a) = 2 * countQuotes a := by
  induction a with
  | nil => rfl
  | cons c rest ih =>
    simp only [countQuotes] at *
    by_cases hc : c = '\''
    · subst hc
      simp [escapeQuotes, List.count_cons, ih]
      omega
    · have hbeq : (c == '\'') = false := by simpa using hc
      simp [escapeQuotes, hc, List.count_cons, ih, hbeq]

theorem quoteRunsAux_escape_even (a : List Char) (n : Nat) (hn : n % 2 = 0) :
    (quoteRunsAux (escapeQuotes a) n).all (fun k => k % 2 = 0) = true := by
  induction a generalizing n with
  | nil =>
    by_cases h : n = 0 <;> simp [quoteRunsAux, h, hn]
  | cons c rest ih =>
    by_cases hc : c = '\''
    · subst hc
      simp only [escapeQuotes, if_pos rfl, quoteRunsAux, if_pos rfl]
      exact ih (n + 2) (by omega)
    · simp only [escapeQuotes, if_neg hc, quoteRunsAux, if_neg hc]
      by_cases h : n = 0
      · simp only [if_pos h]
        exact ih 0 rfl
      · simp only [if_neg h, List.all_cons, hn]
        simpa using ih 0 rfl

/-- C5 counterexample: the claim asserts the query never contains an
odd-length maximal run of single quotes, but already for the plain inputs
`("A", "1")` the template's own quotes around each literal are maximal runs
of length 1. -/
theorem buildVersionQuery_odd_run_cex :
    ((quoteRuns (build_version_query "A".toList "1".toList)).all
      (fun k => k % 2 = 0)) = false := by
  decide

/-- C5 (amended): the query contains exactly
`4 + 2*count(a,"'") + 2*count(b,"'")` single-quote characters — the
template's own 4 quotes plus each input quote exactly doubled — and each
*escaped segment* interpolated into the query contains no odd-length maximal
run of single quotes (the whole query does contain odd runs, namely the
template's own literal quotes). -/
theorem buildVersionQuery_quote_count (a b : List Char) :
    countQuotes (build_version_query a b) =
      4 + 2 * countQuotes a + 2 * countQuotes b ∧
    (quoteRuns (escapeQuotes a)).all (fun k => k % 2 = 0) = true ∧
    (quoteRuns (escapeQuotes b)).all (fun k => k % 2 = 0) = true := by
  refine ⟨?_, quoteRunsAux_escape_even a 0 rfl, quoteRunsAux_escape_even b 0 rfl⟩
  simp only [build_version_query, List.cons_append]
  have hq : countQuotes ['\''] = 1 := by decide
  have hh : countQuotes queryHead = 0 := by decide
  have hm : countQuotes queryMid = 0 := by decide
  simp only [countQuotes_append] at *
  have e1 := countQuotes_escape a
  have e2 := countQuotes_escape b
  simp only [countQuotes] at *
  simp only [List.count_cons, List.count_append] at *
  simp_all
  omega

/-! ### Policy artifact builder: slugify -/

theorem char_toNat_ofNat_valid (n : Nat) (h : n.isValidChar) :
    (Char.ofNat n).toNat = n := by
  simp only [Char.ofNat, dif_pos h, Char.ofNatAux, Char.toNat]
  rfl

theorem isUpperChar_toLower (c : Char) : isUpperChar (Char.toLower c) = false := by
  by_cases h : c.toNat ≥ 65 ∧ c.toNat ≤ 90
  · have hv : (c.toNat + 32).isValidChar := Or.inl (by omega)
    simp only [Char.toLower, if_pos h, isUpperChar]
    rw [char_toNat_ofNat_valid _ hv]
    simp only [Bool.and_eq_false_iff, decide_eq_false_iff_not]
    omega
  · simp only [Char.toLower, if_neg h, isUpperChar]
    simp only [Bool.and_eq_false_iff, decide_eq_false_iff_not]
    omega

theorem toLower_eq_self (c : Char) (h : isUpperChar c = false) :
    Char.toLower c = c := by
  simp only [isUpperChar, Bool.and_eq_false_iff, decide_eq_false_iff_not] at h
  simp only [Char.toLower]
  rw [if_neg]
  omega

theorem mem_collapseSepAux {c : Char} :
    ∀ (l : List Char) (b : Bool), c ∈ collapseSepAux l b →
      c = '-' ∨ (c ∈ l ∧ isSepChar c = false) := by
  intro l
  induction l with
  | nil => intro b h; simp [collapseSepAux] at h
  | cons d rest ih =>
    intro b h
    by_cases hd : isSepChar d
    · simp only [collapseSepAux, if_pos hd] at h
      cases b with
      | true =>
        rcases ih true h with h' | h'
        · exact Or.inl h'
        · exact Or.inr ⟨List.mem_cons_of_mem _ h'.1, h'.2⟩
      | false =>
        rcases List.mem_cons.1 h with rfl | h'
        · exact Or.inl rfl
        · rcases ih true h' with h'' | h''
          · exact Or.inl h''
          · exact Or.inr ⟨List.mem_cons_of_mem _ h''.1, h''.2⟩
    · simp only [collapseSepAux, if_neg hd] at h
      rcases List.mem_cons.1 h with rfl | h'
      · exact Or.inr ⟨List.mem_cons_self _ _, by simpa using hd⟩
      · rcases ih false h' with h'' | h''
        · exact Or.inl h''
        · exact Or.inr ⟨List.mem_cons_of_mem _ h''.1, h''.2⟩

theorem mem_stripHyphens {c : Char} {l : List Char} (h : c ∈ stripHyphens l) :
    c ∈ l := by
  simp only [stripHyphens, List.mem_reverse] at h
  have h1 := (List.dropWhile_suffix (l := (l.dropWhile (fun c => c = '-')).reverse)
    (fun c => c = '-')).subset h
  rw [List.mem_reverse] at h1
  exact (List.dropWhile_suffix (fun c => c = '-')).subset h1

theorem mem_slugify_shape {c : Char} {t : List Char} (h : c ∈ slugify t) :
    (isWordChar c = true ∧ isUpperChar c = false ∧ c ≠ '_') ∨ c = '-' := by
  have h1 := mem_stripHyphens h
  rcases mem_collapseSepAux _ _ h1 with rfl | ⟨h2, hsep⟩
  · exact Or.inr rfl
  · rw [List.mem_filter] at h2
    obtain ⟨hmem, hkeep⟩ := h2
    rw [List.mem_map] at hmem
    obtain ⟨c0, _, rfl⟩ := hmem
    have hup : isUpperChar (Char.toLower c0) = false := isUpperChar_toLower c0
    left
    refine ⟨?_, hup, ?_⟩
    · simp only [keepChar, Bool.or_eq_true] at hkeep
      rcases hkeep with (hw | hs) | hh
      · exact hw
      · exfalso
        simp only [isSepChar, hs, Bool.true_or] at hsep
        exact absurd hsep (by simp)
      · exfalso
        simp only [decide_eq_true_eq] at hh
        simp [isSepChar, hh] at hsep
    · intro hu
      simp [isSepChar, hu] at hsep

theorem noDoubleHyphen_cons {c : Char} {l : List Char} :
    noDoubleHyphen (c :: l) = ((!(c = '-' && headIsHyphen l)) && noDoubleHyphen l) := rfl

theorem noDoubleHyphen_tail {c : Char} {l : List Char}
    (h : noDoubleHyphen (c :: l) = true) : noDoubleHyphen l = true := by
  rw [noDoubleHyphen_cons, Bool.and_eq_true] at h
  exact h.2

theorem headIsHyphen_collapseSepAux_true (l : List Char) :
    headIsHyphen (collapseSepAux l true) = false := by
  induction l with
  | nil => rfl
  | cons c rest ih =>
    by_cases hc : isSepChar c
    · simpa [collapseSepAux, hc] using ih
    · have hc' : ¬ c = '-' := fun h => hc (by simp [isSepChar, h])
      simp [collapseSepAux, hc, headIsHyphen, hc']

theorem noDoubleHyphen_collapseSepAux (l : List Char) (b : Bool) :
    noDoubleHyphen (collapseSepAux l b) = true := by
  induction l generalizing b with
  | nil => rfl
  | cons c rest ih =>
    by_cases hc : isSepChar c
    · cases b with
      | true => simpa [collapseSepAux, hc] using ih true
      | false =>
        simp only [collapseSepAux, if_pos hc, Bool.false_eq_true, if_neg (by simp : ¬False)]
        rw [noDoubleHyphen_cons, Bool.and_eq_true]
        refine ⟨?_, ih true⟩
        simp [headIsHyphen_collapseSepAux_true rest]
    · have hc' : ¬ c = '-' := fun h => hc (by simp [isSepChar, h])
      simp only [collapseSepAux, if_neg hc]
      rw [noDoubleHyphen_cons, Bool.and_eq_true]
      refine ⟨by simp [hc'], ih false⟩

theorem noDoubleHyphen_of_append_left {l₁ l₂ : List Char}
    (h : noDoubleHyphen (l₁ ++ l₂) = true) : noDoubleHyphen l₁ = true := by
  induction l₁ with
  | nil => rfl
  | cons c rest ih =>
    rw [List.cons_append, noDoubleHyphen_cons, Bool.and_eq_true] at h
    rw [noDoubleHyphen_cons, Bool.and_eq_true]
    refine ⟨?_, ih h.2⟩
    cases rest with
    | nil => simp [headIsHyphen]
    | cons d ds =>
      simpa [headIsHyphen] using h.1

theorem noDoubleHyphen_of_append_right {l₁ l₂ : List Char}
    (h : noDoubleHyphen (l₁ ++ l₂) = true) : noDoubleHyphen l₂ = true := by
  induction l₁ with
  | nil => exact h
  | cons c rest ih =>
    exact ih (noDoubleHyphen_tail h)

theorem head_dropWhile_not (p : Char → Bool) :
    ∀ (l : List Char) {c : Char}, (l.dropWhile p).head? = some c → p c = false := by
  intro l
  induction l with
  | nil => intro c h; simp at h
  | cons d rest ih =>
    intro c h
    by_cases hd : p d
    · rw [List.dropWhile_cons_of_pos hd] at h
      exact ih h
    · rw [List.dropWhile_cons_of_neg hd] at h
      simp only [List.head?_cons, Option.some.injEq] at h
      rw [← h]
      simpa using hd

theorem stripHyphens_decomp (l : List Char) :
    ∃ v, l.dropWhile (fun c => c = '-') = stripHyphens l ++ v := by
  obtain ⟨v, hv⟩ := List.dropWhile_suffix
    (l := (l.dropWhile (fun c => c = '-')).reverse) (fun c => c = '-')
  refine ⟨v.reverse, ?_⟩
  have h1 : (v ++ (l.dropWhile (fun c => c = '-')).reverse.dropWhile
      (fun c => c = '-')).reverse = l.dropWhile (fun c => c = '-') := by
    rw [hv, List.reverse_reverse]
  rw [List.reverse_append] at h1
  rw [← h1]
  rfl

theorem stripHyphens_is_infix (l : List Char) :
    ∃ u v, l = u ++ stripHyphens l ++ v := by
  obtain ⟨u, hu⟩ := List.dropWhile_suffix (l := l) (fun c => c = '-')
  obtain ⟨v, hv⟩ := stripHyphens_decomp l
  exact ⟨u, v, by rw [List.append_assoc, ← hv]; exact hu.symm⟩

theorem stripHyphens_head (l : List Char) :
    (stripHyphens l).head? ≠ some '-' := by
  obtain ⟨v, hv⟩ := stripHyphens_decomp l
  cases hs : stripHyphens l with
  | nil => simp
  | cons c cs =>
    rw [hs, List.cons_append] at hv
    have := head_dropWhile_not (fun c => c = '-') l (c := c) (by rw [hv]; rfl)
    simp only [decide_eq_false_iff_not] at this
    simp [this]

theorem stripHyphens_getLast (l : List Char) :
    (stripHyphens l).getLast? ≠ some '-' := by
  have hrev : (stripHyphens l).reverse =
      (l.dropWhile (fun c => c = '-')).reverse.dropWhile (fun c => c = '-') := by
    simp [stripHyphens]
  intro h
  rw [← List.head?_reverse, hrev] at h
  have := head_dropWhile_not (fun c => c = '-')
    ((l.dropWhile (fun c => c = '-')).reverse) h
  simp at this

theorem word_not_sep {c : Char} (hw : isWordChar c = true) (hu : c ≠ '_') :
    isSepChar c = false := by
  have hn : 65 ≤ c.toNat ∧ c.toNat ≤ 90 ∨ 97 ≤ c.toNat ∧ c.toNat ≤ 122 ∨
      48 ≤ c.toNat ∧ c.toNat ≤ 57 := by
    simp only [isWordChar, isUpperChar, isLowerAlpha, isDigitChar,
      Bool.or_eq_true, Bool.and_eq_true, decide_eq_true_eq] at hw
    rcases hw with (((h1 | h2) | h3) | h4)
    exacts [Or.inl h1, Or.inr (Or.inl h2), Or.inr (Or.inr h3), absurd h4 hu]
  simp only [isSepChar, isSpaceChar, Bool.or_eq_false_iff,
    decide_eq_false_iff_not]
  and_intros
  all_goals first
    | omega
    | (rintro rfl; revert hn; decide)

theorem collapseSepAux_eq_self :
    ∀ (l : List Char) (b : Bool),
      (∀ c ∈ l, isSepChar c = true → c = '-') →
      noDoubleHyphen l = true →
      (b = true → headIsHyphen l = false) →
      collapseSepAux l b = l := by
  intro l
  induction l with
  | nil => intro b _ _ _; rfl
  | cons c rest ih =>
    intro b hcond hnd hb
    by_cases hsep : isSepChar c
    · have hc : c = '-' := hcond c (List.mem_cons_self _ _) hsep
      subst hc
      cases b with
      | true =>
        exfalso
        have := hb rfl
        simp [headIsHyphen] at this
      | false =>
        simp only [collapseSepAux, if_pos hsep]
        rw [if_neg (by simp)]
        have hrest : headIsHyphen rest = false := by
          rw [noDoubleHyphen_cons, Bool.and_eq_true] at hnd
          simpa using hnd.1
        rw [ih true (fun d hd => hcond d (List.mem_cons_of_mem _ hd))
          (noDoubleHyphen_tail hnd) (fun _ => hrest)]
    · simp only [collapseSepAux, if_neg hsep]
      rw [ih false (fun d hd => hcond d (List.mem_cons_of_mem _ hd))
        (noDoubleHyphen_tail hnd) (by intro h; exact absurd h (by simp))]

theorem dropWhile_eq_self_of_head {p : Char → Bool} {l : List Char}
    (h : ∀ c, l.head? = some c → p c = false) : l.dropWhile p = l := by
  cases l with
  | nil => rfl
  | cons c rest => exact List.dropWhile_cons_of_neg (by simp [h c rfl])

theorem stripHyphens_eq_self {l : List Char}
    (h1 : l.head? ≠ some '-') (h2 : l.getLast? ≠ some '-') :
    stripHyphens l = l := by
  have e1 : l.dropWhile (fun c => c = '-') = l :=
    dropWhile_eq_self_of_head (fun c hc => by
      simp only [decide_eq_false_iff_not]
      intro he
      exact h1 (he ▸ hc))
  have e2 : l.reverse.dropWhile (fun c => c = '-') = l.reverse :=
    dropWhile_eq_self_of_head (fun c hc => by
      rw [List.head?_reverse] at hc
      simp only [decide_eq_false_iff_not]
      intro he
      exact h2 (he ▸ hc))
  rw [stripHyphens, e1, e2, List.reverse_reverse]

theorem map_toLower_id {l : List Char} (h : ∀ c ∈ l, isUpperChar c = false) :
    l.map Char.toLower = l := by
  have := List.map_congr_left (l := l) (f := Char.toLower) (g := id)
    (fun c hc => toLower_eq_self c (h c hc))
  simpa using this

/-- C6: for every input, `slugify` returns only lowercase word characters
(no underscores) and isolated hyphens, never starts or ends with a hyphen,
and is idempotent; it is a total function on all inputs. -/
theorem slugify_shape_idempotent (t : List Char) :
    (∀ c ∈ slugify t,
      (isWordChar c = true ∧ isUpperChar c = false ∧ c ≠ '_') ∨ c = '-') ∧
    noDoubleHyphen (slugify t) = true ∧
    (slugify t).head? ≠ some '-' ∧
    (slugify t).getLast? ≠ some '-' ∧
    slugify (slugify t) = slugify t := by
  have hshape : ∀ c ∈ slugify t,
      (isWordChar c = true ∧ isUpperChar c = false ∧ c ≠ '_') ∨ c = '-' :=
    fun _ hc => mem_slugify_shape hc
  have hnd : noDoubleHyphen (slugify t) = true := by
    obtain ⟨u, v, huv⟩ := stripHyphens_is_infix
      (collapseSepAux ((t.map Char.toLower).filter keepChar) false)
    have hcol := noDoubleHyphen_collapseSepAux
      ((t.map Char.toLower).filter keepChar) false
    rw [huv] at hcol
    exact noDoubleHyphen_of_append_right (noDoubleHyphen_of_append_left hcol)
  have hh : (slugify t).head? ≠ some '-' := stripHyphens_head _
  have hl : (slugify t).getLast? ≠ some '-' := stripHyphens_getLast _
  refine ⟨hshape, hnd, hh, hl, ?_⟩
  have hup : ∀ c ∈ slugify t, isUpperChar c = false := by
    intro c hc
    rcases hshape c hc with ⟨_, h2, _⟩ | rfl
    · exact h2
    · decide
  have hkeep : ∀ c ∈ slugify t, keepChar c = true := by
    intro c hc
    rcases hshape c hc with ⟨h1, _, _⟩ | rfl
    · simp [keepChar, h1]
    · decide
  have hsep : ∀ c ∈ slugify t, isSepChar c = true → c = '-' := by
    intro c hc hs
    rcases hshape c hc with ⟨h1, _, h3⟩ | rfl
    · exact absurd hs (by simp [word_not_sep h1 h3])
    · rfl
  have e1 : (slugify t).map Char.toLower = slugify t := map_toLower_id hup
  have e2 : (slugify t).filter keepChar = slugify t := List.filter_eq_self.mpr hkeep
  have e3 : collapseSepAux (slugify t) false = slugify t :=
    collapseSepAux_eq_self (slugify t) false hsep hnd
      (by intro h; exact absurd h (by simp))
  show stripHyphens
      (collapseSepAux (((slugify t).map Char.toLower).filter keepChar) false) =
    slugify t
  rw [e1, e2, e3]
  exact stripHyphens_eq_self hh hl

theorem splitOnGo_ne_nil (fuel : Nat) (s pat : List Char) :
    splitOnGo fuel s pat ≠ [] := by
  match fuel, s, pat with
  | fuel, s, [] => simp [splitOnGo]
  | 0, s, p :: ps => simp [splitOnGo]
  | fuel + 1, [], p :: ps => simp [splitOnGo]
  | fuel + 1, c :: rest, p :: ps =>
    simp only [splitOnGo]
    split
    · simp
    · split <;> simp

theorem joinWith_cons_cons (sep : List Char) (c : Char) (q : List Char)
    (qs : List (List Char)) :
    joinWith sep ((c :: q) :: qs) = c :: joinWith sep (q :: qs) := by
  cases qs with
  | nil => rfl
  | cons y ys => simp [joinWith]

theorem isPrefixOf_true_iff {l₁ l₂ : List Char} :
    l₁.isPrefixOf l₂ = true ↔ l₁ <+: l₂ :=
  List.isPrefixOf_iff_prefix

theorem takeWhile_isPre (p : Char → Bool) (l : List Char) :
    l.takeWhile p <+: l :=
  List.takeWhile_prefix p

theorem joinWith_splitOnGo (fuel : Nat) (s pat : List Char)
    (h : s.length ≤ fuel) :
    joinWith pat (splitOnGo fuel s pat) = s := by
  induction fuel generalizing s with
  | zero =>
    cases pat <;> simp [splitOnGo, joinWith]
  | succ fuel ih =>
    match s, pat with
    | s, [] => simp [splitOnGo, joinWith]
    | [], p :: ps => simp [splitOnGo, joinWith]
    | c :: rest, p :: ps =>
      simp only [splitOnGo]
      split
      · next hpre =>
        have hp : (p :: ps) <+: (c :: rest) := isPrefixOf_true_iff.mp hpre
        have happ := List.prefix_iff_eq_append.mp hp
        have hlen : ((c :: rest).drop (p :: ps).length).length ≤ fuel := by
          simp only [List.length_drop]
          simp only [List.length_cons] at h ⊢
          omega
        cases hsp : splitOnGo fuel ((c :: rest).drop (p :: ps).length) (p :: ps) with
        | nil => exact absurd hsp (splitOnGo_ne_nil _ _ _)
        | cons q qs =>
          have := ih ((c :: rest).drop (p :: ps).length) hlen
          rw [hsp] at this
          simp only [joinWith, List.nil_append]
          rw [this]
          exact happ
      · next hpre =>
        have hlen : rest.length ≤ fuel := by
          simp only [List.length_cons] at h
          omega
        cases hsp : splitOnGo fuel rest (p :: ps) with
        | nil => exact absurd hsp (splitOnGo_ne_nil _ _ _)
        | cons q qs =>
          have := ih rest hlen
          rw [hsp] at this
          rw [joinWith_cons_cons, this]

theorem replaceAllGo_joinWith (fuel : Nat) (s pat repl : List Char)
    (h : s.length ≤ fuel) :
    replaceAllGo fuel s pat repl = joinWith repl (splitOnGo fuel s pat) := by
  induction fuel generalizing s with
  | zero =>
    cases pat <;> simp [splitOnGo, replaceAllGo, joinWith]
  | succ fuel ih =>
    match s, pat with
    | s, [] => simp [splitOnGo, replaceAllGo, joinWith]
    | [], p :: ps => simp [splitOnGo, replaceAllGo, joinWith]
    | c :: rest, p :: ps =>
      simp only [splitOnGo, replaceAllGo]
      split
      · next hpre =>
        have hlen : ((c :: rest).drop (p :: ps).length).length ≤ fuel := by
          simp only [List.length_drop]
          simp only [List.length_cons] at h ⊢
          omega
        cases hsp : splitOnGo fuel ((c :: rest).drop (p :: ps).length) (p :: ps) with
        | nil => exact absurd hsp (splitOnGo_ne_nil _ _ _)
        | cons q qs =>
          have := ih ((c :: rest).drop (p :: ps).length) hlen
          rw [hsp] at this
          rw [this]
          rw [show joinWith repl ([] :: q :: qs) = [] ++ repl ++ joinWith repl (q :: qs) from rfl]
          simp
      · next hpre =>
        have hlen : rest.length ≤ fuel := by
          simp only [List.length_cons] at h
          omega
        cases hsp : splitOnGo fuel rest (p :: ps) with
        | nil => exact absurd hsp (splitOnGo_ne_nil _ _ _)
        | cons q qs =>
          have := ih rest hlen
          rw [hsp] at this
          rw [this, joinWith_cons_cons]

theorem replaceAllGo_of_not_contains (fuel : Nat) (s pat repl : List Char)
    (h : containsSub pat s = false) :
    replaceAllGo fuel s pat repl = s := by
  induction fuel generalizing s with
  | zero => cases pat <;> rfl
  | succ fuel ih =>
    match s, pat with
    | s, [] => cases s <;> rfl
    | [], p :: ps => rfl
    | c :: rest, p :: ps =>
      simp only [containsSub, Bool.or_eq_false_iff] at h
      simp only [replaceAllGo, h.1, Bool.false_eq_true, if_false]
      rw [ih rest h.2]

theorem joinWith_nil_eq_flatten (L : List (List Char)) :
    joinWith [] L = L.flatten := by
  match L with
  | [] => rfl
  | [x] => simp [joinWith]
  | x :: y :: rest =>
    rw [joinWith, joinWith_nil_eq_flatten (y :: rest)]
    simp

/-- C7: `format_policy_name` equals the template with every occurrence of
the placeholder `%NAME%` replaced by `slugify(software_title)` — the
token-free pieces of the template are preserved verbatim (joining them back
with the token reconstructs the template exactly), every occurrence is
replaced by the same slug value, and a template with no occurrence of the
placeholder is returned unchanged. -/
theorem format_policy_name_spec (template software_title : List Char) :
    format_policy_name template software_title =
      joinWith (slugify software_title) (splitOnToken template nameToken) ∧
    joinWith nameToken (splitOnToken template nameToken) = template ∧
    (containsSub nameToken template = false →
      format_policy_name template software_title = template) := by
  refine ⟨?_, ?_, ?_⟩
  · exact replaceAllGo_joinWith template.length template nameToken
      (slugify software_title) le_rfl
  · exact joinWith_splitOnGo template.length template nameToken le_rfl
  · intro h
    exact replaceAllGo_of_not_contains template.length template nameToken
      (slugify software_title) h

/-- Witness for C7 at concrete inputs: a template with no placeholder is
returned unchanged, and a template with two placeholders has both replaced
by the same slug. -/
theorem format_policy_name_spec_witness :
    containsSub nameToken "static-policy-name".toList = false ∧
    format_policy_name "static-policy-name".toList "GitHub Desktop".toList =
      "static-policy-name".toList ∧
    format_policy_name "auto-%NAME%-p-%NAME%".toList "Claude".toList =
      joinWith (slugify "Claude".toList)
        (splitOnToken "auto-%NAME%-p-%NAME%".toList nameToken) := by
  refine ⟨by decide, ?_, (format_policy_name_spec _ _).1⟩
  exact (format_policy_name_spec _ _).2.2 (by decide)

/-- C10: when the title's slug is empty, `format_policy_name` returns the
template with each `%NAME%` occurrence deleted; in particular the result may
end with a hyphen and need not be slug-shaped. -/
theorem format_policy_name_empty_slug (template software_title : List Char)
    (h : slugify software_title = []) :
    format_policy_name template software_title =
      (splitOnToken template nameToken).flatten := by
  have h1 : format_policy_name template software_title =
      joinWith (slugify software_title) (splitOnToken template nameToken) :=
    replaceAllGo_joinWith template.length template nameToken
      (slugify software_title) le_rfl
  rw [h, joinWith_nil_eq_flatten] at h1
  exact h1

/-- Witness for C10 at the repository's own edge case: the empty title has
an empty slug, `format_policy_name("autopkg-auto-update-%NAME%", "")`
returns `"autopkg-auto-update-"`, and that result ends with a hyphen. -/
theorem format_policy_name_empty_slug_witness :
    slugify "".toList = [] ∧
    format_policy_name "autopkg-auto-update-%NAME%".toList "".toList =
      "autopkg-auto-update-".toList ∧
    ("autopkg-auto-update-".toList).getLast? = some '-' := by
  refine ⟨rfl, ?_, by decide⟩
  rw [format_policy_name_empty_slug "autopkg-auto-update-%NAME%".toList
    "".toList rfl]
  decide

/-! ### Validator: infrastructure lemmas and concrete documents -/

theorem seqC_none {a b : CheckOut} (ha : a.exn = none) :
    seqC a b = ⟨a.errs ++ b.errs, a.warns ++ b.warns, b.exn⟩ := by
  simp [seqC, ha]

theorem containsSub_iff (pat : List Char) :
    ∀ s : List Char, containsSub pat s = true ↔ ∃ u v, s = u ++ pat ++ v := by
  intro s
  induction s with
  | nil =>
    simp only [containsSub, List.isEmpty_iff]
    constructor
    · intro h
      exact ⟨[], [], by simp [h]⟩
    · rintro ⟨u, v, huv⟩
      rcases List.append_eq_nil.mp huv.symm with ⟨h1, h2⟩
      rcases List.append_eq_nil.mp h1 with ⟨_, h3⟩
      exact h3
  | cons c rest ih =>
    simp only [containsSub, Bool.or_eq_true]
    constructor
    · rintro (h | h)
      · have hp := isPrefixOf_true_iff.mp h
        exact ⟨[], (c :: rest).drop pat.length, by
          rw [List.nil_append]
          exact (List.prefix_iff_eq_append.mp hp).symm⟩
      · obtain ⟨u, v, huv⟩ := ih.mp h
        exact ⟨c :: u, v, by rw [huv]; rfl⟩
    · rintro ⟨u, v, huv⟩
      cases u with
      | nil =>
        left
        rw [List.nil_append] at huv
        exact isPrefixOf_true_iff.mpr ⟨v, huv.symm⟩
      | cons c' u' =>
        right
        rw [List.cons_append, List.cons_append] at huv
        injection huv with h1 h2
        exact ih.mpr ⟨u', v, h2⟩

theorem containsSub_append_of_right {pat s : List Char} (w : List Char)
    (h : containsSub pat s = true) : containsSub pat (w ++ s) = true := by
  obtain ⟨u, v, rfl⟩ := (containsSub_iff pat s).mp h
  exact (containsSub_iff pat _).mpr ⟨w ++ u, v, by simp⟩

theorem basename_suffix (path : List Char) : ∃ w, path = w ++ basename path := by
  have hp := takeWhile_isPre (fun c => c != '/') path.reverse
  obtain ⟨t, ht⟩ := hp
  refine ⟨t.reverse, ?_⟩
  have := congrArg List.reverse ht
  rw [List.reverse_append, List.reverse_reverse] at this
  conv_lhs => rw [← this]
  rfl

theorem contains_of_endsWith_basename (tok sfx : List Char) {path : List Char}
    (hsub : containsSub tok sfx = true)
    (he : endsWith (basename path) sfx = true) :
    containsSub tok path = true := by
  have hsfx : ∃ w, basename path = w ++ sfx := by
    have hp := isPrefixOf_true_iff.mp he
    obtain ⟨t, ht⟩ := hp
    refine ⟨t.reverse, ?_⟩
    have := congrArg List.reverse ht
    rw [List.reverse_append, List.reverse_reverse, List.reverse_reverse] at this
    exact this.symm
  obtain ⟨w1, hb⟩ := basename_suffix path
  obtain ⟨w2, hs⟩ := hsfx
  rw [hb, hs]
  exact containsSub_append_of_right w1 (containsSub_append_of_right w2 hsub)

theorem filename_error_of_no_token {path : List Char}
    (hd : containsSub tokDirect path = false)
    (hg : containsSub tokGitops path = false) :
    validate_filename path = [.badFilename path] := by
  have h1 : endsWith (basename path) suffixDirect = false := by
    by_contra h
    rw [Bool.not_eq_false] at h
    have := contains_of_endsWith_basename tokDirect suffixDirect (by decide) h
    rw [this] at hd
    exact absurd hd (by simp)
  have h2 : endsWith (basename path) suffixGitops = false := by
    by_contra h
    rw [Bool.not_eq_false] at h
    have := contains_of_endsWith_basename tokGitops suffixGitops (by decide) h
    rw [this] at hg
    exact absurd hg (by simp)
  simp [validate_filename, h1, h2]

theorem required_fields_map_exn (path : List Char) (es : List (List Char × Yaml)) :
    (validate_required_fields path (.map es)).exn = none := by
  simp only [validate_required_fields]
  split <;> rfl

theorem identifier_exn (path : List Char) (es : List (List Char × Yaml))
    (g d : Bool) (h : idFieldOk es = true) :
    (validate_identifier path (.map es) g d).exn = none := by
  rw [idFieldOk] at h
  simp only [validate_identifier]
  cases hv : mapLookup es kIdentifier with
  | none => simp [Option.getD, Yaml.truthy]
  | some v =>
    rw [hv] at h
    simp only [Option.getD]
    by_cases ht : v.truthy
    · simp only [ht, Bool.not_true, Bool.false_or] at h
      cases v with
      | str s =>
        simp only [ht, Bool.not_true, Bool.false_eq_true, if_false]
        split
        · rfl
        · split
          · rfl
          · split <;> rfl
      | null => simp at h
      | bool b => simp at h
      | int n => simp at h
      | list xs => simp at h
      | map m => simp at h
    · rw [Bool.not_eq_true] at ht
      simp [ht]

theorem findFleetImporter_ok (items : List Yaml)
    (h : items.all stageOk = true) :
    ∃ b, findFleetImporter items = .ok b := by
  induction items with
  | nil => exact ⟨false, rfl⟩
  | cons item rest ih =>
    rw [List.all_cons, Bool.and_eq_true] at h
    cases item with
    | map fes =>
      have hc : containerYaml ((mapLookup fes kProcessor).getD (.str [])) = true := h.1
      obtain ⟨b, hb⟩ := ih h.2
      cases hv : (mapLookup fes kProcessor).getD (.str []) with
      | str s =>
        simp only [findFleetImporter, hv]
        split
        · exact ⟨true, rfl⟩
        · exact ⟨b, hb⟩
      | list xs =>
        simp only [findFleetImporter, hv]
        split
        · exact ⟨true, rfl⟩
        · exact ⟨b, hb⟩
      | map m =>
        simp only [findFleetImporter, hv]
        split
        · exact ⟨true, rfl⟩
        · exact ⟨b, hb⟩
      | null => rw [hv] at hc; simp [containerYaml] at hc
      | bool x => rw [hv] at hc; simp [containerYaml] at hc
      | int n => rw [hv] at hc; simp [containerYaml] at hc
    | null => exact ih h.2
    | bool b => exact ih h.2
    | int n => exact ih h.2
    | str s => exact ih h.2
    | list xs => exact ih h.2

theorem seqC_exn_none {a b : CheckOut} (ha : a.exn = none) (hb : b.exn = none) :
    (seqC a b).exn = none := by
  rw [seqC_none ha]
  exact hb

theorem single_processor_exn (path : List Char) (es : List (List Char × Yaml))
    (h : processFieldOk es = true) :
    (validate_single_processor path (.map es)).exn = none := by
  rw [processFieldOk] at h
  simp only [validate_single_processor]
  cases hp : (mapLookup es kProcess).getD (.list []) with
  | list xs =>
    cases xs with
    | nil => rfl
    | cons first rest =>
      rw [hp] at h
      have hP : (firstStageOk first && (first :: rest).all stageOk) = true := by
        rw [processOk] at h
        simpa [Yaml.truthy] using h
      obtain ⟨b, hb⟩ := findFleetImporter_ok (first :: rest)
        ((Bool.and_eq_true _ _).mp hP).2
      simp only [Yaml.truthy, List.isEmpty_cons, Bool.not_false, if_true, pyLen,
        pyIter, hb, Bool.not_true, Bool.false_eq_true, if_false]
      cases b <;> rfl
  | null =>
    rw [hp] at h
    rfl
  | bool b =>
    rw [hp] at h
    cases b with
    | false => rfl
    | true => simp [processOk, Yaml.truthy] at h
  | int n =>
    rw [hp] at h
    have ht : Yaml.truthy (.int n) = false := by
      rcases (Bool.or_eq_true _ _).mp h with h' | h'
      · simpa using h'
      · simp at h'
    simp [ht]
  | str s =>
    rw [hp] at h
    have ht : Yaml.truthy (.str s) = false := by
      rcases (Bool.or_eq_true _ _).mp h with h' | h'
      · simpa using h'
      · simp at h'
    simp [ht]
  | map m =>
    rw [hp] at h
    have ht : Yaml.truthy (.map m) = false := by
      rcases (Bool.or_eq_true _ _).mp h with h' | h'
      · simpa using h'
      · simp at h'
    simp [ht]

theorem name_exn (path : List Char) (ies : List (List Char × Yaml)) :
    (validate_name path (.map ies)).exn = none := by
  simp only [validate_name]
  split <;> rfl

theorem self_service_exn (path : List Char) (ies : List (List Char × Yaml)) :
    (validate_self_service path (.map ies)).exn = none := by
  simp only [validate_self_service]
  split <;> rfl

theorem automatic_install_exn (path : List Char) (ies : List (List Char × Yaml)) :
    (validate_automatic_install path (.map ies)).exn = none := by
  simp only [validate_automatic_install]
  split <;> rfl

theorem software_dir_exn (path : List Char) (ies : List (List Char × Yaml)) :
    (validate_gitops_software_dir path (.map ies)).exn = none := by
  simp only [validate_gitops_software_dir]
  split
  · rfl
  · split <;> rfl

theorem team_yaml_exn (path : List Char) (ies : List (List Char × Yaml)) :
    (validate_gitops_team_yaml_path path (.map ies)).exn = none := by
  simp only [validate_gitops_team_yaml_path]
  split
  · rfl
  · split <;> rfl

theorem process_arguments_exn (path : List Char) (aes : List (List Char × Yaml))
    (g : Bool) :
    (validate_process_arguments path (.map aes) g).exn = none := by
  rfl

theorem collectInvalid_ok (items : List Yaml)
    (h : items.all hashableYaml = true) :
    ∃ inv, collectInvalid items = .ok inv := by
  induction items with
  | nil => exact ⟨[], rfl⟩
  | cons c rest ih =>
    rw [List.all_cons, Bool.and_eq_true] at h
    obtain ⟨inv, hi⟩ := ih h.2
    cases c with
    | list xs => simp [hashableYaml] at h
    | map m => simp [hashableYaml] at h
    | str s =>
      refine ⟨if supportedCategories.any (fun t => t = s) then inv else .str s :: inv, ?_⟩
      simp [collectInvalid, hi]
    | null => exact ⟨.null :: inv, by simp [collectInvalid, hi]⟩
    | bool b => exact ⟨.bool b :: inv, by simp [collectInvalid, hi]⟩
    | int n => exact ⟨.int n :: inv, by simp [collectInvalid, hi]⟩

theorem all_hashable_str_map {α : Type} (l : List α) (f : α → List Char) :
    (l.map (fun e => Yaml.str (f e))).all hashableYaml = true := by
  rw [List.all_eq_true]
  intro y hy
  rw [List.mem_map] at hy
  obtain ⟨e, _, rfl⟩ := hy
  rfl

theorem categories_exn (path : List Char) (ies : List (List Char × Yaml))
    (h : catsFieldOk ies = true) :
    (validate_categories path (.map ies)).exn = none := by
  rw [catsFieldOk] at h
  simp only [validate_categories]
  cases hv : mapLookup ies kCATEGORIES with
  | none => rfl
  | some c =>
    rw [hv] at h
    by_cases ht : c.truthy = true
    · have hc : catsOk c = true := by
        rcases (Bool.or_eq_true _ _).mp h with h' | h'
        · rw [ht] at h'; simp at h'
        · exact h'
      cases c with
      | str s =>
        obtain ⟨inv, hi⟩ := collectInvalid_ok (s.map (fun ch => Yaml.str [ch]))
          (all_hashable_str_map s (fun ch => [ch]))
        simp only [Option.getD, ht, Bool.not_true, Bool.false_eq_true, if_false,
          pyIter, hi]
        split <;> rfl
      | list xs =>
        obtain ⟨inv, hi⟩ := collectInvalid_ok xs (by simpa [catsOk] using hc)
        simp only [Option.getD, ht, Bool.not_true, Bool.false_eq_true, if_false,
          pyIter, hi]
        split <;> rfl
      | map m =>
        obtain ⟨inv, hi⟩ := collectInvalid_ok (m.map (fun e => Yaml.str e.1))
          (all_hashable_str_map m (fun e => e.1))
        simp only [Option.getD, ht, Bool.not_true, Bool.false_eq_true, if_false,
          pyIter, hi]
        split <;> rfl
      | null => simp [catsOk] at hc
      | bool b => simp [catsOk] at hc
      | int n => simp [catsOk] at hc
    · rw [Bool.not_eq_true] at ht
      simp [ht]

theorem processArgsStage_exn (path : List Char) (es : List (List Char × Yaml))
    (g : Bool) (h : processFieldOk es = true) :
    (processArgsStage path (.map es) g).exn = none := by
  rw [processFieldOk] at h
  simp only [processArgsStage]
  cases hp : (mapLookup es kProcess).getD (.list []) with
  | list xs =>
    cases xs with
    | nil => rfl
    | cons first rest =>
      rw [hp] at h
      have hP : (firstStageOk first && (first :: rest).all stageOk) = true := by
        rw [processOk] at h
        simpa [Yaml.truthy] using h
      have hF : firstStageOk first = true := ((Bool.and_eq_true _ _).mp hP).1
      cases first with
      | map fes =>
        simp only [Yaml.truthy, List.isEmpty_cons, Bool.not_false, if_true,
          pyLen, pyIndexZero]
        rw [if_pos (by rw [List.length_cons]; omega)]
        cases ha : mapLookup fes kArguments with
        | none => simp [ha, process_arguments_exn]
        | some a =>
          rw [firstStageOk] at hF
          rw [ha] at hF
          cases a with
          | map aes => simp [ha, process_arguments_exn]
          | null => simp at hF
          | bool b => simp at hF
          | int n => simp at hF
          | str s => simp at hF
          | list ys => simp at hF
      | null => simp [firstStageOk] at hF
      | bool b => simp [firstStageOk] at hF
      | int n => simp [firstStageOk] at hF
      | str s => simp [firstStageOk] at hF
      | list ys => simp [firstStageOk] at hF
  | null =>
    rfl
  | bool b =>
    rw [hp] at h
    cases b with
    | false => rfl
    | true => simp [processOk, Yaml.truthy] at h
  | int n =>
    rw [hp] at h
    have ht : Yaml.truthy (.int n) = false := by
      rcases (Bool.or_eq_true _ _).mp h with h' | h'
      · simpa using h'
      · simp at h'
    simp [ht]
  | str s =>
    rw [hp] at h
    have ht : Yaml.truthy (.str s) = false := by
      rcases (Bool.or_eq_true _ _).mp h with h' | h'
      · simpa using h'
      · simp at h'
    simp [ht]
  | map m =>
    rw [hp] at h
    have ht : Yaml.truthy (.map m) = false := by
      rcases (Bool.or_eq_true _ _).mp h with h' | h'
      · simpa using h'
      · simp at h'
    simp [ht]

theorem inputStage_exn (path : List Char) (es : List (List Char × Yaml))
    (g : Bool) (hin : inputFieldOk es = true) (hproc : processFieldOk es = true) :
    (inputStage path (.map es) g).exn = none := by
  rw [inputFieldOk] at hin
  simp only [inputStage]
  cases hv : mapLookup es kInput with
  | none => rfl
  | some i =>
    rw [hv] at hin
    by_cases ht : i.truthy = true
    · have hio : inputOk i = true := by
        rcases (Bool.or_eq_true _ _).mp hin with h' | h'
        · rw [ht] at h'; simp at h'
        · exact h'
      cases i with
      | map ies =>
        simp only [Option.getD, ht, Bool.not_true, Bool.false_eq_true, if_false]
        refine seqC_exn_none (name_exn path ies) ?_
        refine seqC_exn_none (self_service_exn path ies) ?_
        refine seqC_exn_none (automatic_install_exn path ies) ?_
        refine seqC_exn_none ?_ ?_
        · cases g with
          | true => exact seqC_exn_none (software_dir_exn path ies) (team_yaml_exn path ies)
          | false => rfl
        · refine seqC_exn_none (categories_exn path ies ?_) ?_
          · rw [inputOk] at hio
            exact hio
          · exact processArgsStage_exn path es g hproc
      | null => simp [inputOk] at hio
      | bool b => simp [inputOk] at hio
      | int n => simp [inputOk] at hio
      | str s => simp [inputOk] at hio
      | list ys => simp [inputOk] at hio
    · rw [Bool.not_eq_true] at ht
      simp [ht]

/-- The three shape conjuncts of `wellShapedDoc` on a mapping. -/
theorem wellShapedDoc_map {es : List (List Char × Yaml)}
    (h : wellShapedDoc (.map es) = true) :
    idFieldOk es = true ∧ processFieldOk es = true ∧ inputFieldOk es = true := by
  rw [wellShapedDoc] at h
  rw [Bool.and_eq_true, Bool.and_eq_true] at h
  exact ⟨h.1.1, h.1.2, h.2⟩

/-- C2 counterexample: the claim says per-recipe validation never raises,
including on a document that parsed to null or whose first `Process` stage
is not a mapping; but `validate_recipe` raises `TypeError` on a null
document (`'Description' not in None`) and `AttributeError` when the first
`Process` stage is a plain string (`'x'.get(...)`). -/
theorem validate_recipe_raises_cex :
    (validate_recipe pathDirect (.ok .null)).exn = some PyExn.typeError ∧
    (validate_recipe pathDirect (.ok docBadStage)).exn = some PyExn.attributeError := by
  constructor <;> rfl

/-- C2 (amended): per-recipe validation completes without raising on every
well-shaped document — a mapping whose truthy `Identifier` is a string,
whose `Process` (when truthy) is a list of inspectable stages whose first
stage is a mapping with mapping (or absent) `Arguments`, and whose truthy
`Input` is a mapping with processable `CATEGORIES` — and on every file whose
parse failed (reported as a single parse error); on null or other malformed
shapes it raises instead of reporting. -/
theorem validate_recipe_no_raise (path : List Char) (d : Yaml)
    (h : wellShapedDoc d = true) :
    (validate_recipe path (.ok d)).exn = none ∧
    (validate_recipe path ParseOutcome.err).exn = none := by
  constructor
  · cases d with
    | map es =>
      obtain ⟨hid, hproc, hin⟩ := wellShapedDoc_map h
      simp only [validate_recipe, required_fields_map_exn]
      exact seqC_exn_none (identifier_exn path es _ _ hid)
        (seqC_exn_none (single_processor_exn path es hproc)
          (inputStage_exn path es _ hin hproc))
    | null => simp [wellShapedDoc] at h
    | bool b => simp [wellShapedDoc] at h
    | int n => simp [wellShapedDoc] at h
    | str s => simp [wellShapedDoc] at h
    | list xs => simp [wellShapedDoc] at h
  · rfl

/-- Witness for C2 (amended) at a concrete well-shaped document. -/
theorem validate_recipe_no_raise_witness :
    wellShapedDoc docTwoStages = true ∧
    (validate_recipe pathDirect (.ok docTwoStages)).exn = none :=
  ⟨rfl, (validate_recipe_no_raise pathDirect docTwoStages rfl).1⟩

theorem countP_zero_of_all_neutral {l : List VError}
    (h : l.all processNeutral = true) :
    l.countP mentionsProcessMissing = 0 ∧ l.countP isProcessDependent = 0 := by
  rw [List.all_eq_true] at h
  constructor <;>
    · rw [List.countP_eq_zero]
      intro a ha
      have := h a ha
      rw [processNeutral, Bool.and_eq_true] at this
      simp only [Bool.not_eq_true'] at this
      simp [this.1, this.2]

theorem filename_neutral (path : List Char) :
    (validate_filename path).all processNeutral = true := by
  rw [validate_filename]
  split <;> rfl

theorem vendor_neutral (path : List Char) :
    (validate_vendor_folder path).all processNeutral = true := by
  rw [validate_vendor_folder]
  split
  · split <;> rfl
  · rfl

theorem identifier_neutral (path : List Char) (data : Yaml) (g d : Bool) :
    (validate_identifier path data g d).errs.all processNeutral = true ∧
    (validate_identifier path data g d).warns = [] := by
  unfold validate_identifier
  try dsimp only
  repeat' split
  all_goals exact ⟨rfl, rfl⟩

theorem name_neutral (path : List Char) (inp : Yaml) :
    (validate_name path inp).errs.all processNeutral = true ∧
    (validate_name path inp).warns = [] := by
  unfold validate_name
  try dsimp only
  repeat' split
  all_goals exact ⟨rfl, rfl⟩

theorem self_service_neutral (path : List Char) (inp : Yaml) :
    (validate_self_service path inp).errs.all processNeutral = true ∧
    (validate_self_service path inp).warns = [] := by
  unfold validate_self_service
  try dsimp only
  repeat' split
  all_goals exact ⟨rfl, rfl⟩

theorem automatic_install_neutral (path : List Char) (inp : Yaml) :
    (validate_automatic_install path inp).errs.all processNeutral = true ∧
    (validate_automatic_install path inp).warns = [] := by
  unfold validate_automatic_install
  try dsimp only
  repeat' split
  all_goals exact ⟨rfl, rfl⟩

theorem software_dir_neutral (path : List Char) (inp : Yaml) :
    (validate_gitops_software_dir path inp).errs.all processNeutral = true ∧
    (validate_gitops_software_dir path inp).warns = [] := by
  unfold validate_gitops_software_dir
  try dsimp only
  repeat' split
  all_goals exact ⟨rfl, rfl⟩

theorem team_yaml_neutral (path : List Char) (inp : Yaml) :
    (validate_gitops_team_yaml_path path inp).errs.all processNeutral = true ∧
    (validate_gitops_team_yaml_path path inp).warns = [] := by
  unfold validate_gitops_team_yaml_path
  try dsimp only
  repeat' split
  all_goals exact ⟨rfl, rfl⟩

theorem categories_neutral (path : List Char) (inp : Yaml) :
    (validate_categories path inp).errs.all processNeutral = true ∧
    (validate_categories path inp).warns = [] := by
  unfold validate_categories
  try dsimp only
  repeat' split
  all_goals exact ⟨rfl, rfl⟩

theorem pyContainsB_map_of_lookup_none {es : List (List Char × Yaml)}
    {k : List Char} (h : mapLookup es k = none) :
    pyContainsB k (.map es) = false := by
  rw [mapLookup, Option.map_eq_none'] at h
  rw [List.find?_eq_none] at h
  rw [pyContainsB, List.any_eq_false]
  exact h

theorem required_fields_no_process (path : List Char)
    (es : List (List Char × Yaml)) (h : mapLookup es kProcess = none) :
    ∃ missing, validate_required_fields path (.map es) =
        ⟨[.missingFields path missing], [], none⟩ ∧
      missing.any (fun k => k = kProcess) = true := by
  have hc : pyContainsB kProcess (.map es) = false :=
    pyContainsB_map_of_lookup_none h
  refine ⟨requiredFieldKeys.filter (fun k => !(pyContainsB k (.map es))), ?_, ?_⟩
  · have hmem : kProcess ∈ requiredFieldKeys.filter
        (fun k => !(pyContainsB k (.map es))) := by
      rw [List.mem_filter]
      exact ⟨by rw [requiredFieldKeys]; simp, by rw [hc]; rfl⟩
    have hne : (requiredFieldKeys.filter
        (fun k => !(pyContainsB k (.map es)))).isEmpty = false := by
      rw [List.isEmpty_eq_false]
      exact List.ne_nil_of_mem hmem
    simp only [validate_required_fields, hne, Bool.false_eq_true, if_false]
  · rw [List.any_eq_true]
    refine ⟨kProcess, ?_, by simp⟩
    rw [List.mem_filter]
    exact ⟨by rw [requiredFieldKeys]; simp, by rw [hc]; rfl⟩

theorem single_processor_no_key (path : List Char)
    (es : List (List Char × Yaml)) (h : mapLookup es kProcess = none) :
    validate_single_processor path (.map es) =
      ⟨[.missingProcess path], [], none⟩ := by
  simp only [validate_single_processor, h]
  rfl

theorem processArgsStage_no_key (path : List Char)
    (es : List (List Char × Yaml)) (g : Bool)
    (h : mapLookup es kProcess = none) :
    processArgsStage path (.map es) g = ⟨[], [], none⟩ := by
  simp only [processArgsStage, h]
  rfl

/-- Combination rule: sequencing two checks whose errors are neutral and
whose warnings are empty. -/
theorem seqC_neutral {a b : CheckOut}
    (ha : a.errs.all processNeutral = true ∧ a.warns = [] ∧ a.exn = none)
    (hb : b.errs.all processNeutral = true ∧ b.warns = [] ∧ b.exn = none) :
    (seqC a b).errs.all processNeutral = true ∧
    (seqC a b).warns = [] ∧ (seqC a b).exn = none := by
  rw [seqC_none ha.2.2]
  refine ⟨?_, ?_, hb.2.2⟩
  · rw [List.all_append, ha.1, hb.1]
    rfl
  · rw [ha.2.1, hb.2.1]
    rfl

theorem inputStage_neutral (path : List Char) (es : List (List Char × Yaml))
    (g : Bool) (hin : inputFieldOk es = true)
    (hnp : mapLookup es kProcess = none) :
    (inputStage path (.map es) g).errs.all processNeutral = true ∧
    (inputStage path (.map es) g).warns = [] ∧
    (inputStage path (.map es) g).exn = none := by
  rw [inputFieldOk] at hin
  simp only [inputStage]
  cases hv : mapLookup es kInput with
  | none => exact ⟨rfl, rfl, rfl⟩
  | some i =>
    rw [hv] at hin
    by_cases ht : i.truthy = true
    · have hio : inputOk i = true := by
        rcases (Bool.or_eq_true _ _).mp hin with h' | h'
        · rw [ht] at h'; simp at h'
        · exact h'
      cases i with
      | map ies =>
        simp only [Option.getD, ht, Bool.not_true, Bool.false_eq_true, if_false]
        refine seqC_neutral ⟨(name_neutral path _).1, (name_neutral path _).2,
            name_exn path ies⟩ ?_
        refine seqC_neutral ⟨(self_service_neutral path _).1,
            (self_service_neutral path _).2, self_service_exn path ies⟩ ?_
        refine seqC_neutral ⟨(automatic_install_neutral path _).1,
            (automatic_install_neutral path _).2, automatic_install_exn path ies⟩ ?_
        refine seqC_neutral ?_ ?_
        · cases g with
          | true =>
            exact seqC_neutral ⟨(software_dir_neutral path _).1,
                (software_dir_neutral path _).2, software_dir_exn path ies⟩
              ⟨(team_yaml_neutral path _).1, (team_yaml_neutral path _).2,
                team_yaml_exn path ies⟩
          | false => exact ⟨rfl, rfl, rfl⟩
        · refine seqC_neutral ⟨(categories_neutral path _).1,
              (categories_neutral path _).2, categories_exn path ies ?_⟩ ?_
          · rw [inputOk] at hio
            exact hio
          · rw [processArgsStage_no_key path es g hnp]
            exact ⟨rfl, rfl, rfl⟩
      | null => simp [inputOk] at hio
      | bool b => simp [inputOk] at hio
      | int n => simp [inputOk] at hio
      | str s => simp [inputOk] at hio
      | list ys => simp [inputOk] at hio
    · rw [Bool.not_eq_true] at ht
      simp [Option.getD, ht, processNeutral, mentionsProcessMissing, isProcessDependent]

/-- C3 counterexample: the claim says a missing prerequisite key is
reported by exactly one error entry, never by two; but on an otherwise
compliant document with no `Process` key, `validate_recipe` reports the
absence twice — once in the required-fields entry and once as the dedicated
"Missing Process section" entry. -/
theorem missing_process_double_report_cex :
    ((validate_recipe pathDirect (.ok docNoProcess)).errs.countP
      mentionsProcessMissing) = 2 := by
  rfl

/-- The `Process` half of the prerequisite-key report: on a well-shaped
mapping document with no `Process` key, the dependent checks
(FleetImporter presence, process-argument bindings, stage-count warning)
are skipped — no such error or warning is emitted — but the absence itself
is reported by exactly two error entries. -/
theorem missing_process_reported (path : List Char)
    (es : List (List Char × Yaml)) (hws : wellShapedDoc (.map es) = true)
    (hnp : mapLookup es kProcess = none) :
    (validate_recipe path (.ok (.map es))).errs.countP mentionsProcessMissing = 2 ∧
    (validate_recipe path (.ok (.map es))).errs.countP isProcessDependent = 0 ∧
    (validate_recipe path (.ok (.map es))).warns = [] := by
  obtain ⟨hid, hproc, hin⟩ := wellShapedDoc_map hws
  obtain ⟨missing, hrf, hmem⟩ := required_fields_no_process path es hnp
  have hsp := single_processor_no_key path es hnp
  have hidE := identifier_exn path es (containsSub tokGitops path)
    (containsSub tokDirect path) hid
  obtain ⟨hidAll, hidW⟩ := identifier_neutral path (.map es)
    (containsSub tokGitops path) (containsSub tokDirect path)
  obtain ⟨hinAll, hinW, hinE⟩ := inputStage_neutral path es
    (containsSub tokGitops path) hin hnp
  obtain ⟨hid0m, hid0d⟩ := countP_zero_of_all_neutral hidAll
  obtain ⟨hin0m, hin0d⟩ := countP_zero_of_all_neutral hinAll
  obtain ⟨hfn0m, hfn0d⟩ := countP_zero_of_all_neutral (filename_neutral path)
  obtain ⟨hvd0m, hvd0d⟩ := countP_zero_of_all_neutral (vendor_neutral path)
  simp only [validate_recipe, hrf]
  rw [hsp, seqC_none hidE,
    seqC_none (show (⟨[VError.missingProcess path], [], none⟩ : CheckOut).exn = none from rfl)]
  refine ⟨?_, ?_, ?_⟩
  · simp only [List.countP_append, hid0m, hin0m, hfn0m, hvd0m,
      List.countP_cons, List.countP_nil]
    simp [mentionsProcessMissing, hmem]
  · simp only [List.countP_append, hid0d, hin0d, hfn0d, hvd0d,
      List.countP_cons, List.countP_nil]
    simp [isProcessDependent, mentionsProcessMissing]
  · simp [hidW, hinW]

/-- C4: a run that completes (no uncaught exception) signals success (exit
code 0 from `report_results`) iff the accumulated error list is empty,
independently of the number of warnings; one or more errors yields exit
code 1. -/
theorem run_success_iff_no_errors (files : List (List Char × ParseOutcome))
    (fin : RunState) (_h : runValidator files initState = (fin, none)) :
    (report_results fin = 0 ↔ fin.errors = []) ∧
    (fin.errors ≠ [] → report_results fin = 1) := by
  constructor
  · rw [report_results]
    by_cases he : fin.errors.isEmpty
    · constructor
      · intro _
        exact List.isEmpty_iff.mp he
      · intro _
        split
        · rfl
        · rw [he]
          simp
    · constructor
      · intro h0
        rw [if_neg (by simp [he]), if_pos (by simp [he])] at h0
        exact absurd h0 (by simp)
      · intro hnil
        rw [hnil] at he
        simp at he
  · intro hne
    have he : fin.errors.isEmpty = false := by
      rw [List.isEmpty_eq_false]
      exact hne
    rw [report_results, if_neg (by simp [he]), if_pos (by simp [he])]

/-- Witness for C4: a run over one recipe with zero errors and one warning
(two `Process` stages) completes, signals success, and surfaces the
warning. -/
theorem run_success_iff_no_errors_witness :
    (runValidator [(pathDirect, .ok docTwoStages)] initState).2 = none ∧
    (runValidator [(pathDirect, .ok docTwoStages)] initState).1.errors = [] ∧
    (runValidator [(pathDirect, .ok docTwoStages)] initState).1.warnings.length = 1 ∧
    (report_results (runValidator [(pathDirect, .ok docTwoStages)] initState).1 = 0 ↔
      (runValidator [(pathDirect, .ok docTwoStages)] initState).1.errors = []) ∧
    report_results (runValidator [(pathDirect, .ok docTwoStages)] initState).1 = 0 := by
  refine ⟨rfl, rfl, rfl, ?_, rfl⟩
  exact (run_success_iff_no_errors [(pathDirect, .ok docTwoStages)] _ rfl).1

/-- C8 counterexample: the claim says the derived mode is `direct` iff the
path contains the direct token, and that the two classifications are
mutually exclusive by construction of the filename rule; but a valid gitops
filename whose path also contains `.direct.` is counted as gitops and not
as direct, so "direct iff the direct token occurs" is false. -/
theorem mode_iff_token_cex :
    containsSub tokDirect pathBoth = true ∧
    validate_filename pathBoth = [] ∧
    (validate_recipe pathBoth (.ok docTwoStages)).countedGitops = true ∧
    (validate_recipe pathBoth (.ok docTwoStages)).countedDirect = false :=
  ⟨rfl, rfl, rfl, rfl⟩

/-- C8 (amended): for every parsed document on which the required-fields
check does not raise, the file is counted gitops iff its path contains the
gitops token, counted direct iff its path contains the direct token and not
the gitops token (gitops takes precedence), never both; and a file whose
path contains neither token is excluded from both per-mode counts and
receives the filename error (the valid filename suffixes contain the
tokens). -/
theorem mode_counts_spec (path : List Char) (d : Yaml)
    (h : (validate_required_fields path d).exn = none) :
    (validate_recipe path (.ok d)).countedGitops = containsSub tokGitops path ∧
    (validate_recipe path (.ok d)).countedDirect =
      (containsSub tokDirect path && !(containsSub tokGitops path)) ∧
    ¬((validate_recipe path (.ok d)).countedGitops = true ∧
      (validate_recipe path (.ok d)).countedDirect = true) ∧
    (containsSub tokGitops path = false → containsSub tokDirect path = false →
      (validate_recipe path (.ok d)).countedGitops = false ∧
      (validate_recipe path (.ok d)).countedDirect = false ∧
      VError.badFilename path ∈ (validate_recipe path (.ok d)).errs) := by
  simp only [validate_recipe, h]
  refine ⟨by trivial, by trivial, ?_, ?_⟩
  · rintro ⟨h1, h2⟩
    simp only [h1] at h2
    simp at h2
  · intro hg hd
    refine ⟨by simp [hg], by simp [hd], ?_⟩
    rw [filename_error_of_no_token hd hg]
    simp

/-- Witness for C8 (amended) at a concrete path containing neither token. -/
theorem mode_counts_spec_witness :
    (validate_required_fields pathNoToken docTwoStages).exn = none ∧
    containsSub tokGitops pathNoToken = false ∧
    containsSub tokDirect pathNoToken = false ∧
    ((validate_recipe pathNoToken (.ok docTwoStages)).countedGitops = false ∧
     (validate_recipe pathNoToken (.ok docTwoStages)).countedDirect = false ∧
     VError.badFilename pathNoToken ∈
       (validate_recipe pathNoToken (.ok docTwoStages)).errs) :=
  ⟨rfl, rfl, rfl, (mode_counts_spec pathNoToken docTwoStages rfl).2.2.2 rfl rfl⟩

theorem collectInvalid_str (cats : List Yaml) (h : cats.all isStrYaml = true) :
    collectInvalid cats = .ok (cats.filter (fun c => !(catSupported c))) := by
  induction cats with
  | nil => rfl
  | cons c rest ih =>
    rw [List.all_cons, Bool.and_eq_true] at h
    cases c with
    | str s =>
      rw [collectInvalid, ih h.2]
      by_cases hs : supportedCategories.any (fun t => t = s) = true
      · simp [hs, List.filter_cons, catSupported]
      · rw [Bool.not_eq_true] at hs
        simp [hs, List.filter_cons, catSupported]
    | null => simp [isStrYaml] at h
    | bool b => simp [isStrYaml] at h
    | int n => simp [isStrYaml] at h
    | list xs => simp [isStrYaml] at h
    | map m => simp [isStrYaml] at h

/-- C9: the categories check produces no error when `CATEGORIES` is absent
or an empty list, and for a present list of strings it produces exactly one
error listing precisely the entries outside the supported set; on the fully
compliant gitops document whose `CATEGORIES` is `["Browsers", "Gaming"]`,
the whole recipe validation yields exactly one error, naming `"Gaming"` and
not `"Browsers"`. -/
theorem validate_categories_spec (path : List Char)
    (ies : List (List Char × Yaml)) (cats : List Yaml) :
    (mapLookup ies kCATEGORIES = none →
      validate_categories path (.map ies) = ⟨[], [], none⟩) ∧
    (mapLookup ies kCATEGORIES = some (.list []) →
      validate_categories path (.map ies) = ⟨[], [], none⟩) ∧
    (mapLookup ies kCATEGORIES = some (.list cats) →
      cats.all isStrYaml = true →
      validate_categories path (.map ies) =
        (if (cats.filter (fun c => !(catSupported c))).isEmpty then
          ⟨[], [], none⟩
         else
          ⟨[.badCategories path (cats.filter (fun c => !(catSupported c)))],
            [], none⟩)) ∧
    ((validate_recipe pathGitops (.ok docGitopsCats)).errs =
        [.badCategories pathGitops [.str "Gaming".toList]] ∧
      (validate_recipe pathGitops (.ok docGitopsCats)).warns = []) := by
  refine ⟨?_, ?_, ?_, rfl, rfl⟩
  · intro hv
    simp only [validate_categories, hv]
    rfl
  · intro hv
    simp only [validate_categories, hv]
    rfl
  · intro hv hall
    simp only [validate_categories, hv]
    cases cats with
    | nil => rfl
    | cons c cs =>
      simp only [Option.getD, Yaml.truthy, List.isEmpty_cons, Bool.not_false,
        Bool.not_true, Bool.false_eq_true, if_false, pyIter,
        collectInvalid_str _ hall]

/-- Witness for C9 at the scenario input `["Browsers", "Gaming"]`. -/
theorem validate_categories_spec_witness :
    mapLookup catsOnlyInput kCATEGORIES = some (.list catsBG) ∧
    catsBG.all isStrYaml = true ∧
    validate_categories pathGitops (.map catsOnlyInput) =
      ⟨[.badCategories pathGitops [.str "Gaming".toList]], [], none⟩ := by
  refine ⟨rfl, rfl, ?_⟩
  have h := (validate_categories_spec pathGitops catsOnlyInput catsBG).2.2.1 rfl rfl
  rw [h]
  rfl

/-- Witness for C1 at the repository's own scenario input
`("O'Reilly Software", "1.0.0")`. -/
theorem buildVersionQuery_injection_safe_witness :
    build_version_query "O'Reilly Software".toList "1.0.0".toList =
      "SELECT * FROM programs WHERE name = 'O''Reilly Software' AND version != '1.0.0'".toList ∧
    unescapeQuotes (escapeQuotes "O'Reilly Software".toList) =
      "O'Reilly Software".toList :=
  ⟨by decide,
    (buildVersionQuery_injection_safe "O'Reilly Software".toList "1.0.0".toList).2.1⟩

/-- Witness for C5 (amended) at a concrete input with quotes in both
arguments. -/
theorem buildVersionQuery_quote_count_witness :
    countQuotes (build_version_query "Bob's App".toList "1'0".toList) =
      4 + 2 * countQuotes "Bob's App".toList + 2 * countQuotes "1'0".toList ∧
    (quoteRuns (escapeQuotes "Bob's App".toList)).all (fun k => k % 2 = 0) = true ∧
    countQuotes (build_version_query "Bob's App".toList "1'0".toList) = 8 :=
  ⟨(buildVersionQuery_quote_count "Bob's App".toList "1'0".toList).1,
    (buildVersionQuery_quote_count "Bob's App".toList "1'0".toList).2.1,
    by decide⟩

/-- Witness for C6 at a concrete input with uppercase, spaces and
punctuation. -/
theorem slugify_shape_idempotent_witness :
    slugify (slugify "GitHub Desktop 2.0!".toList) =
      slugify "GitHub Desktop 2.0!".toList ∧
    slugify "GitHub Desktop 2.0!".toList = "github-desktop-20".toList ∧
    noDoubleHyphen (slugify "GitHub Desktop 2.0!".toList) = true :=
  ⟨(slugify_shape_idempotent "GitHub Desktop 2.0!".toList).2.2.2.2,
    by decide,
    (slugify_shape_idempotent "GitHub Desktop 2.0!".toList).2.1⟩

theorem countP_zero_of_all_inputNeutral {l : List VError}
    (h : l.all inputNeutral = true) :
    l.countP mentionsInputMissing = 0 ∧ l.countP isInputDependent = 0 := by
  rw [List.all_eq_true] at h
  constructor <;>
    · rw [List.countP_eq_zero]
      intro a ha
      have := h a ha
      rw [inputNeutral, Bool.and_eq_true] at this
      simp only [Bool.not_eq_true'] at this
      simp [this.1, this.2]

theorem filename_inputNeutral (path : List Char) :
    (validate_filename path).all inputNeutral = true := by
  rw [validate_filename]
  split <;> rfl

theorem vendor_inputNeutral (path : List Char) :
    (validate_vendor_folder path).all inputNeutral = true := by
  rw [validate_vendor_folder]
  split
  · split <;> rfl
  · rfl

theorem identifier_inputNeutral (path : List Char) (data : Yaml) (g d : Bool) :
    (validate_identifier path data g d).errs.all inputNeutral = true := by
  unfold validate_identifier
  try dsimp only
  repeat' split
  all_goals rfl

theorem single_processor_inputNeutral (path : List Char) (data : Yaml) :
    (validate_single_processor path data).errs.all inputNeutral = true := by
  unfold validate_single_processor
  try dsimp only
  repeat' split
  all_goals rfl

theorem required_fields_no_input (path : List Char)
    (es : List (List Char × Yaml)) (h : mapLookup es kInput = none) :
    ∃ missing, validate_required_fields path (.map es) =
        ⟨[.missingFields path missing], [], none⟩ ∧
      missing.any (fun k => k = kInput) = true := by
  have hc : pyContainsB kInput (.map es) = false :=
    pyContainsB_map_of_lookup_none h
  refine ⟨requiredFieldKeys.filter (fun k => !(pyContainsB k (.map es))), ?_, ?_⟩
  · have hmem : kInput ∈ requiredFieldKeys.filter
        (fun k => !(pyContainsB k (.map es))) := by
      rw [List.mem_filter]
      exact ⟨by rw [requiredFieldKeys]; simp, by rw [hc]; rfl⟩
    have hne : (requiredFieldKeys.filter
        (fun k => !(pyContainsB k (.map es)))).isEmpty = false := by
      rw [List.isEmpty_eq_false]
      exact List.ne_nil_of_mem hmem
    simp only [validate_required_fields, hne, Bool.false_eq_true, if_false]
  · rw [List.any_eq_true]
    refine ⟨kInput, ?_, by simp⟩
    rw [List.mem_filter]
    exact ⟨by rw [requiredFieldKeys]; simp, by rw [hc]; rfl⟩

theorem inputStage_no_key (path : List Char) (es : List (List Char × Yaml))
    (g : Bool) (h : mapLookup es kInput = none) :
    inputStage path (.map es) g = ⟨[.missingInput path], [], none⟩ := by
  simp only [inputStage, h]
  rfl

/-- C3 (amended): when a prerequisite top-level key — `Process` or `Input`
— is absent from a well-shaped mapping document, the checks depending on
that key are skipped with no false-positive error (and, for `Process`, no
warning), but the absence is reported by exactly two error entries, not
one: the required-fields entry listing the key and the dedicated
"Missing ... section" entry. -/
theorem missing_prereq_reported (path : List Char)
    (es : List (List Char × Yaml)) (hws : wellShapedDoc (.map es) = true) :
    (mapLookup es kProcess = none →
      (validate_recipe path (.ok (.map es))).errs.countP mentionsProcessMissing = 2 ∧
      (validate_recipe path (.ok (.map es))).errs.countP isProcessDependent = 0 ∧
      (validate_recipe path (.ok (.map es))).warns = []) ∧
    (mapLookup es kInput = none →
      (validate_recipe path (.ok (.map es))).errs.countP mentionsInputMissing = 2 ∧
      (validate_recipe path (.ok (.map es))).errs.countP isInputDependent = 0) := by
  constructor
  · intro hnp
    exact missing_process_reported path es hws hnp
  · intro hni
    obtain ⟨hid, hproc, hin⟩ := wellShapedDoc_map hws
    obtain ⟨missing, hrf, hmem⟩ := required_fields_no_input path es hni
    have hspE := single_processor_exn path es hproc
    have hidE := identifier_exn path es (containsSub tokGitops path)
      (containsSub tokDirect path) hid
    have hisK := inputStage_no_key path es (containsSub tokGitops path) hni
    obtain ⟨hid0m, hid0d⟩ := countP_zero_of_all_inputNeutral
      (identifier_inputNeutral path (.map es) (containsSub tokGitops path)
        (containsSub tokDirect path))
    obtain ⟨hsp0m, hsp0d⟩ := countP_zero_of_all_inputNeutral
      (single_processor_inputNeutral path (.map es))
    obtain ⟨hfn0m, hfn0d⟩ := countP_zero_of_all_inputNeutral
      (filename_inputNeutral path)
    obtain ⟨hvd0m, hvd0d⟩ := countP_zero_of_all_inputNeutral
      (vendor_inputNeutral path)
    simp only [validate_recipe, hrf]
    rw [hisK, seqC_none hidE, seqC_none hspE]
    refine ⟨?_, ?_⟩
    · simp only [List.countP_append, hid0m, hsp0m, hfn0m, hvd0m,
        List.countP_cons, List.countP_nil]
      simp [mentionsInputMissing, hmem]
    · simp only [List.countP_append, hid0d, hsp0d, hfn0d, hvd0d,
        List.countP_cons, List.countP_nil]
      simp [isInputDependent, mentionsInputMissing]

/-- Witness for C3 (amended) at concrete documents, one with no `Process`
key and one with no `Input` key. -/
theorem missing_prereq_reported_witness :
    wellShapedDoc docNoProcess = true ∧
    wellShapedDoc docNoInput = true ∧
    ((validate_recipe pathDirect (.ok docNoProcess)).errs.countP
        mentionsProcessMissing = 2 ∧
      (validate_recipe pathDirect (.ok docNoProcess)).errs.countP
        isProcessDependent = 0 ∧
      (validate_recipe pathDirect (.ok docNoProcess)).warns = []) ∧
    ((validate_recipe pathDirect (.ok docNoInput)).errs.countP
        mentionsInputMissing = 2 ∧
      (validate_recipe pathDirect (.ok docNoInput)).errs.countP
        isInputDependent = 0) := by
  refine ⟨rfl, rfl, (missing_prereq_reported pathDirect _ ?_).1 ?_,
    (missing_prereq_reported pathDirect _ ?_).2 ?_⟩ <;> rfl
